import Mathlib

/-!
Shallow embedding of the CryptoJS 3.x core (core.js, cipher-core.js,
algo-hmac.js): the WordArray byte buffer, the streaming hash accumulator,
the block cipher engine with CBC mode and PKCS5/7 padding, the OpenSSL
salted format, the EVP-style password-based encryption orchestration and
the generic HMAC construction.

JavaScript arrays of 32-bit words are modelled as `List Nat` whose
elements are kept below `2 ^ 32`; reading past the end of an array
(JS `undefined`, coerced to 0 by the bit operators) is modelled by
`getW`, which returns 0 out of range.  JS `x >>> 2` on a nonnegative
index is `x / 4`, `x & 0xff` is `x &&& 0xff`, and the 32-bit wrap of a
JS shift is modelled by `%`/`&&&` with `2 ^ 32` where the shifted value
can exceed 32 bits.
-/

namespace CryptoJS

/-- Read word `i` of a JS array; `undefined` coerces to 0 in bit ops. -/
def getW (ws : List Nat) (i : Nat) : Nat := ws.getD i 0

/-- Write word `i` of a JS array, extending with zeros as JS assignment does. -/
def setW : List Nat → Nat → Nat → List Nat
  | [], 0, v => [v]
  | [], i + 1, v => 0 :: setW [] i v
  | _ :: t, 0, v => v :: t
  | h :: t, i + 1, v => h :: setW t i v

/-- Byte `i` of a word array: `(words[i >>> 2] >>> (24 - (i % 4) * 8)) & 0xff`
(core.js, the byte extraction used by `concat` and the encoders). -/
def byteAt (ws : List Nat) (i : Nat) : Nat :=
  getW ws (i / 4) >>> (24 - i % 4 * 8) &&& 0xff

/-- Big-endian packing of four bytes into one 32-bit word. -/
def packWord (b0 b1 b2 b3 : Nat) : Nat :=
  b0 <<< 24 ||| b1 <<< 16 ||| b2 <<< 8 ||| b3

/-- Big-endian packing of a byte sequence into words, zero-padding the tail. -/
def packBytes : List Nat → List Nat
  | [] => []
  | b0 :: rest =>
      packWord b0 (getW rest 0) (getW rest 1) (getW rest 2) :: packBytes (rest.drop 3)
termination_by bs => bs.length
decreasing_by simp only [List.length_drop, List.length_cons]; omega

/- ### Bit-level arithmetic kit -/

theorem shiftLeft_lor_eq_add (a b k : Nat) (hb : b < 2 ^ k) :
    a <<< k ||| b = a <<< k + b := by
  apply Nat.eq_of_testBit_eq
  intro j
  rw [Nat.testBit_lor, Nat.shiftLeft_eq, Nat.mul_comm,
    Nat.testBit_mul_pow_two_add a hb, Nat.testBit_mul_pow_two]
  rcases Nat.lt_or_ge j k with h | h
  · simp [h, Nat.not_le_of_lt h]
  · have : b.testBit j = false :=
      Nat.testBit_lt_two_pow (lt_of_lt_of_le hb (Nat.pow_le_pow_right (by norm_num) h))
    simp [this, h, Nat.not_lt_of_le h]

theorem packWord_eq_add {b0 b1 b2 b3 : Nat} (h0 : b0 < 256) (h1 : b1 < 256)
    (h2 : b2 < 256) (h3 : b3 < 256) :
    packWord b0 b1 b2 b3 = b0 * 2 ^ 24 + b1 * 2 ^ 16 + b2 * 2 ^ 8 + b3 := by
  unfold packWord
  have e3 : b2 <<< 8 ||| b3 = b2 <<< 8 + b3 := shiftLeft_lor_eq_add _ _ _ h3
  have l3 : b2 <<< 8 + b3 < 2 ^ 16 := by
    rw [Nat.shiftLeft_eq]; omega
  have e2 : b1 <<< 16 ||| (b2 <<< 8 + b3) = b1 <<< 16 + (b2 <<< 8 + b3) :=
    shiftLeft_lor_eq_add _ _ _ l3
  have l2 : b1 <<< 16 + (b2 <<< 8 + b3) < 2 ^ 24 := by
    rw [Nat.shiftLeft_eq, Nat.shiftLeft_eq]; omega
  have e1 : b0 <<< 24 ||| (b1 <<< 16 + (b2 <<< 8 + b3)) =
      b0 <<< 24 + (b1 <<< 16 + (b2 <<< 8 + b3)) := shiftLeft_lor_eq_add _ _ _ l2
  rw [Nat.lor_assoc, Nat.lor_assoc, e3, e2, e1,
    Nat.shiftLeft_eq, Nat.shiftLeft_eq, Nat.shiftLeft_eq]
  ring

theorem packWord_lt {b0 b1 b2 b3 : Nat} (h0 : b0 < 256) (h1 : b1 < 256)
    (h2 : b2 < 256) (h3 : b3 < 256) : packWord b0 b1 b2 b3 < 2 ^ 32 := by
  rw [packWord_eq_add h0 h1 h2 h3]; omega

theorem shiftRight_and_byte (w k : Nat) : w >>> k &&& 0xff = w / 2 ^ k % 256 := by
  have : (0xff : Nat) = 2 ^ 8 - 1 := by norm_num
  rw [this, Nat.and_pow_two_sub_one_eq_mod, Nat.shiftRight_eq_div_pow]

/-- The byte lanes of a packed word. -/
theorem byteAt_packWord {b0 b1 b2 b3 : Nat} (h0 : b0 < 256) (h1 : b1 < 256)
    (h2 : b2 < 256) (h3 : b3 < 256) :
    packWord b0 b1 b2 b3 >>> 24 &&& 0xff = b0 ∧
    packWord b0 b1 b2 b3 >>> 16 &&& 0xff = b1 ∧
    packWord b0 b1 b2 b3 >>> 8 &&& 0xff = b2 ∧
    packWord b0 b1 b2 b3 &&& 0xff = b3 := by
  have h := packWord_eq_add h0 h1 h2 h3
  refine ⟨?_, ?_, ?_, ?_⟩
  · rw [shiftRight_and_byte, h]; omega
  · rw [shiftRight_and_byte, h]; omega
  · rw [shiftRight_and_byte, h]; omega
  · have : (0xff : Nat) = 2 ^ 8 - 1 := by norm_num
    rw [this, Nat.and_pow_two_sub_one_eq_mod, h]; omega

/-- A 32-bit word is the packing of its four byte lanes. -/
theorem packWord_unpack {w : Nat} (hw : w < 2 ^ 32) :
    packWord (w >>> 24 &&& 0xff) (w >>> 16 &&& 0xff) (w >>> 8 &&& 0xff)
      (w &&& 0xff) = w := by
  have e0 := shiftRight_and_byte w 24
  have e1 := shiftRight_and_byte w 16
  have e2 := shiftRight_and_byte w 8
  have e3 : w &&& 0xff = w % 256 := by
    have : (0xff : Nat) = 2 ^ 8 - 1 := by norm_num
    rw [this, Nat.and_pow_two_sub_one_eq_mod]
  rw [e0, e1, e2, e3, packWord_eq_add (by omega) (by omega) (by omega) (by omega)]
  omega

/- ### List access kit -/

theorem getW_eq (ws : List Nat) (i : Nat) : getW ws i = ws[i]?.getD 0 := by
  simp [getW, List.getD_eq_getElem?_getD]

theorem getW_nil (i : Nat) : getW [] i = 0 := rfl

theorem getW_lt {ws : List Nat} {i : Nat} (h : i < ws.length) (hw : ∀ w ∈ ws, w < 2 ^ 32) :
    getW ws i < 2 ^ 32 := by
  rw [getW_eq, List.getElem?_eq_getElem h]
  exact hw _ (List.getElem_mem h)

theorem getW_drop (ws : List Nat) (n i : Nat) : getW (ws.drop n) i = getW ws (n + i) := by
  simp [getW_eq, List.getElem?_drop]

theorem getW_take {ws : List Nat} {n i : Nat} (h : i < n) :
    getW (ws.take n) i = getW ws i := by
  simp [getW_eq, List.getElem?_take, h]

theorem getW_append_left {l₁ l₂ : List Nat} {i : Nat} (h : i < l₁.length) :
    getW (l₁ ++ l₂) i = getW l₁ i := by
  simp [getW_eq, List.getElem?_append, h]

theorem getW_append_right {l₁ l₂ : List Nat} {i : Nat} (h : l₁.length ≤ i) :
    getW (l₁ ++ l₂) i = getW l₂ (i - l₁.length) := by
  simp [getW_eq, List.getElem?_append, Nat.not_lt_of_le h]

theorem getW_eq_zero {ws : List Nat} {i : Nat} (h : ws.length ≤ i) : getW ws i = 0 := by
  simp [getW_eq, List.getElem?_eq_none h]

theorem byteAt_lt (ws : List Nat) (i : Nat) : byteAt ws i < 256 := by
  have h : getW ws (i / 4) >>> (24 - i % 4 * 8) &&& 0xff ≤ 0xff := Nat.and_le_right
  simpa [byteAt] using Nat.lt_succ_of_le h

theorem length_setW (l : List Nat) (i : Nat) (v : Nat) :
    (setW l i v).length = max l.length (i + 1) := by
  induction l generalizing i with
  | nil =>
      induction i with
      | zero => simp [setW]
      | succ n ih =>
          rw [setW, List.length_cons, ih]
          simp only [List.length_nil]
          omega
  | cons h t ih =>
      cases i with
      | zero => simp [setW]
      | succ n =>
          rw [setW, List.length_cons, List.length_cons, ih]
          omega

theorem getW_setW_self (l : List Nat) (i : Nat) (v : Nat) : getW (setW l i v) i = v := by
  induction l generalizing i with
  | nil =>
      induction i with
      | zero => rfl
      | succ n ih => simpa [setW, getW] using ih
  | cons h t ih =>
      cases i with
      | zero => rfl
      | succ n => simpa [setW, getW] using ih n

theorem getW_setW_ne (l : List Nat) {i j : Nat} (v : Nat) (h : j ≠ i) :
    getW (setW l i v) j = getW l j := by
  induction l generalizing i j with
  | nil =>
      induction i generalizing j with
      | zero => cases j with
        | zero => exact absurd rfl h
        | succ m => rfl
      | succ n ih =>
          cases j with
          | zero => rfl
          | succ m => simpa [setW, getW] using ih (fun hc => h (by omega))
  | cons hd t ih =>
      cases i with
      | zero => cases j with
        | zero => exact absurd rfl h
        | succ m => rfl
      | succ n =>
          cases j with
          | zero => rfl
          | succ m => simpa [setW, getW] using ih (fun hc => h (by omega))

theorem setW_append_end {l : List Nat} {i : Nat} (v : Nat) (h : l.length = i) :
    setW l i v = l ++ [v] := by
  induction l generalizing i with
  | nil => subst h; rfl
  | cons hd t ih =>
      cases i with
      | zero => simp at h
      | succ n => simp [setW, ih (by simpa using h)]

theorem setW_last {l : List Nat} {i : Nat} (v : Nat) (h : l.length = i + 1) :
    setW l i v = l.take i ++ [v] := by
  induction l generalizing i with
  | nil => simp at h
  | cons hd t ih =>
      cases i with
      | zero =>
          have : t = [] := by simpa using List.length_eq_zero.mp (by simpa using h)
          simp [setW, this]
      | succ n => simp [setW, ih (by simpa using h)]

/- ### packBytes kit -/

theorem packWord_zero : packWord 0 0 0 0 = 0 := rfl

theorem packBytes_nil : packBytes [] = [] := by rw [packBytes]

theorem getW_cons_succ (a : Nat) (l : List Nat) (n : Nat) :
    getW (a :: l) (n + 1) = getW l n := rfl

theorem getD_cons_shift (b0 : Nat) (rest : List Nat) {k m : Nat} (h : k = m + 1) :
    (b0 :: rest).getD k 0 = rest.getD m 0 := by
  subst h; exact List.getD_cons_succ ..

theorem packBytes_length (X : List Nat) : (packBytes X).length = (X.length + 3) / 4 := by
  induction X using packBytes.induct with
  | case1 => simp [packBytes]
  | case2 b0 rest ih =>
      rw [packBytes]
      simp only [List.length_cons, List.length_drop] at *
      omega

/-- Word `j` of a packed byte list is the packing of bytes `4j .. 4j+3`. -/
theorem getW_packBytes (X : List Nat) (j : Nat) :
    getW (packBytes X) j =
      packWord (X.getD (4 * j) 0) (X.getD (4 * j + 1) 0)
        (X.getD (4 * j + 2) 0) (X.getD (4 * j + 3) 0) := by
  induction X using packBytes.induct generalizing j with
  | case1 =>
      rw [packBytes_nil]
      simp [getW_nil, List.getD_nil, packWord_zero]
  | case2 b0 rest ih =>
      rw [packBytes]
      cases j with
      | zero =>
          rw [Nat.mul_zero, getW, List.getD_cons_zero, List.getD_cons_zero,
            getD_cons_shift b0 rest (by omega : 0 + 1 = 0 + 1),
            getD_cons_shift b0 rest (by omega : 0 + 2 = 1 + 1),
            getD_cons_shift b0 rest (by omega : 0 + 3 = 2 + 1)]
          rfl
      | succ n =>
          have hd : ∀ k, (rest.drop 3).getD k 0 = rest.getD (3 + k) 0 := by
            intro k; simp [List.getD_eq_getElem?_getD, List.getElem?_drop]
          rw [getW_cons_succ, ih n, hd, hd, hd, hd,
            getD_cons_shift b0 rest (show 4 * (n + 1) = (3 + 4 * n) + 1 by omega),
            getD_cons_shift b0 rest (show 4 * (n + 1) + 1 = (3 + (4 * n + 1)) + 1 by omega),
            getD_cons_shift b0 rest (show 4 * (n + 1) + 2 = (3 + (4 * n + 2)) + 1 by omega),
            getD_cons_shift b0 rest (show 4 * (n + 1) + 3 = (3 + (4 * n + 3)) + 1 by omega)]

theorem allLt256_getD {X : List Nat} (hX : ∀ b ∈ X, b < 256) (i : Nat) :
    X.getD i 0 < 256 := by
  rcases Nat.lt_or_ge i X.length with h | h
  · rw [List.getD_eq_getElem?_getD, List.getElem?_eq_getElem h]
    exact hX _ (List.getElem_mem h)
  · rw [List.getD_eq_getElem?_getD, List.getElem?_eq_none h]; norm_num

theorem packBytes_allLt {X : List Nat} (hX : ∀ b ∈ X, b < 256) :
    ∀ w ∈ packBytes X, w < 2 ^ 32 := by
  intro w hw
  obtain ⟨j, hj, rfl⟩ := List.getElem_of_mem hw
  have := getW_packBytes X j
  rw [getW_eq, List.getElem?_eq_getElem hj] at this
  simp only [Option.getD_some] at this
  rw [this]
  exact packWord_lt (allLt256_getD hX _) (allLt256_getD hX _)
    (allLt256_getD hX _) (allLt256_getD hX _)

/-- Byte `i` of a packed byte list recovers byte `i`. -/
theorem byteAt_packBytes {X : List Nat} (hX : ∀ b ∈ X, b < 256) (i : Nat) :
    byteAt (packBytes X) i = X.getD i 0 := by
  have h0 := allLt256_getD hX (4 * (i / 4))
  have h1 := allLt256_getD hX (4 * (i / 4) + 1)
  have h2 := allLt256_getD hX (4 * (i / 4) + 2)
  have h3 := allLt256_getD hX (4 * (i / 4) + 3)
  have hp := byteAt_packWord h0 h1 h2 h3
  have hD : ∀ k k', k = k' → X.getD k 0 = X.getD k' 0 := by
    intro k k' hk; rw [hk]
  have hr : i % 4 = 0 ∨ i % 4 = 1 ∨ i % 4 = 2 ∨ i % 4 = 3 := by omega
  unfold byteAt
  rw [getW_packBytes]
  rcases hr with h | h | h | h
  · rw [h, show (24 - 0 * 8 : Nat) = 24 from rfl, hp.1]
    exact hD _ _ (by omega)
  · rw [h, show (24 - 1 * 8 : Nat) = 16 from rfl, hp.2.1]
    exact hD _ _ (by omega)
  · rw [h, show (24 - 2 * 8 : Nat) = 8 from rfl, hp.2.2.1]
    exact hD _ _ (by omega)
  · rw [h, show (24 - 3 * 8 : Nat) = 0 from rfl, Nat.shiftRight_zero, hp.2.2.2]
    exact hD _ _ (by omega)

theorem packBytes_drop (X : List Nat) (k : Nat) :
    packBytes (X.drop (4 * k)) = (packBytes X).drop k := by
  induction k generalizing X with
  | zero => simp
  | succ n ih =>
      cases X with
      | nil => simp [packBytes_nil]
      | cons b0 rest =>
          rw [packBytes]
          have h1 : (b0 :: rest).drop (4 * (n + 1)) = (rest.drop 3).drop (4 * n) := by
            rw [List.drop_drop]
            rw [show 4 * (n + 1) = (4 * n + (3 : Nat)) + 1 by omega]
            rw [List.drop_succ_cons]
            try (congr 1; omega)
          rw [h1, ih, List.drop_succ_cons]

theorem packBytes_take (X : List Nat) (k : Nat) :
    packBytes (X.take (4 * k)) = (packBytes X).take k := by
  induction k generalizing X with
  | zero => simp [packBytes_nil]
  | succ n ih =>
      cases X with
      | nil => simp [packBytes_nil]
      | cons b0 rest =>
          have h1 : (b0 :: rest).take (4 * (n + 1)) = b0 :: rest.take (4 * n + 3) := by
            rw [show 4 * (n + 1) = (4 * n + 3) + 1 by omega, List.take_succ_cons]
          rw [h1, packBytes, packBytes]
          have hg : ∀ t, t < 3 → getW (rest.take (4 * n + 3)) t = getW rest t := by
            intro t ht; exact getW_take (by omega)
          rw [hg 0 (by omega), hg 1 (by omega), hg 2 (by omega)]
          have h2 : (rest.take (4 * n + 3)).drop 3 = (rest.drop 3).take (4 * n) := by
            rw [List.drop_take, Nat.add_sub_cancel]
          rw [h2, ih, List.take_succ_cons]

theorem packBytes_append {A : List Nat} (B : List Nat) (hA : 4 ∣ A.length) :
    packBytes (A ++ B) = packBytes A ++ packBytes B := by
  obtain ⟨m, hm⟩ := hA
  have ht : (A ++ B).take (4 * m) = A := by
    rw [List.take_append_of_le_length (by omega)]
    exact List.take_of_length_le (by omega)
  have hd : (A ++ B).drop (4 * m) = B := by
    rw [List.drop_append_of_le_length (by omega)]
    rw [List.drop_of_length_le (by omega)]; simp
  calc packBytes (A ++ B)
      = (packBytes (A ++ B)).take m ++ (packBytes (A ++ B)).drop m :=
        (List.take_append_drop _ _).symm
    _ = packBytes A ++ packBytes B := by
        rw [← packBytes_take, ← packBytes_drop, ht, hd]

/-- Masking with a left-shifted all-ones window keeps the window's bits. -/
theorem and_shift_mask (w m s : Nat) :
    w &&& (2 ^ m - 1) <<< s = ((w >>> s) % 2 ^ m) <<< s := by
  apply Nat.eq_of_testBit_eq
  intro j
  rw [Nat.testBit_and, Nat.testBit_shiftLeft, Nat.testBit_shiftLeft,
    Nat.testBit_two_pow_sub_one, Nat.testBit_mod_two_pow, Nat.testBit_shiftRight]
  rcases Nat.lt_or_ge j s with h | h
  · simp [Nat.not_le_of_lt h]
  · simp only [ge_iff_le, h, decide_True, Bool.true_and]
    rw [Nat.add_sub_cancel' h]
    exact Bool.and_comm _ _

/- ### WordArray: the byte buffer of core.js -/

/-- `C_lib_WordArray` (core.js): an array of 32-bit words together with a
significant byte count. -/
structure WordArray where
  words : List Nat
  sigBytes : Nat
deriving DecidableEq, Repr

namespace WordArray

/-- `init(words, sigBytes)` (core.js line 115): missing `sigBytes` defaults to
`words.length * 4`. -/
def create (words : List Nat) (sig : Option Nat) : WordArray :=
  ⟨words, sig.getD (words.length * 4)⟩

/-- `clone()` (core.js line 183): deep copy of the word list. -/
def clone (x : WordArray) : WordArray := ⟨x.words, x.sigBytes⟩

/-- The significant byte sequence of a word array. -/
def toBytes (x : WordArray) : List Nat := (List.range x.sigBytes).map (byteAt x.words)

/-- All words fit in 32 bits (invariant of every buffer JS can build). -/
def WF (x : WordArray) : Prop := ∀ w ∈ x.words, w < 2 ^ 32

instance (x : WordArray) : Decidable (WF x) := by unfold WF; infer_instance

/-- `clamp()` (core.js lines 168-176): mask the partial trailing word with
`0xffffffff << (32 - (sigBytes % 4) * 8)` (a JS shift, count taken mod 32 and
the result wrapped to 32 bits) and truncate `words` to `ceil(sigBytes / 4)`. -/
def clamp (x : WordArray) : WordArray :=
  let j := x.sigBytes / 4
  let mask := 0xffffffff <<< ((32 - x.sigBytes % 4 * 8) % 32) &&& 0xffffffff
  ⟨(setW x.words j (getW x.words j &&& mask)).take ((x.sigBytes + 3) / 4), x.sigBytes⟩

/-- The byte-copy loop of `concat` (core.js lines 154-158): OR byte `i` of the
appended array into byte position `sig` of the target, `cnt` times. -/
def concatGo (tw : List Nat) (sig : Nat) (bw : List Nat) (i : Nat) : Nat → List Nat × Nat
  | 0 => (tw, sig)
  | cnt + 1 =>
      concatGo (setW tw (sig / 4) (getW tw (sig / 4) ||| byteAt bw i <<< (24 - sig % 4 * 8)))
        (sig + 1) bw (i + 1) cnt

/-- `concat(wordArray)` (core.js lines 143-163): clamp, then copy the appended
array's significant bytes one at a time. -/
def concat (a b : WordArray) : WordArray :=
  let c := clamp a
  let r := concatGo c.words c.sigBytes b.words 0 b.sigBytes
  ⟨r.1, r.2⟩

end WordArray

/-- The canonical word array holding a given byte sequence: big-endian packed
words, `sigBytes` the byte count. -/
def canonOf (P : List Nat) : WordArray := ⟨packBytes P, P.length⟩

theorem toBytes_length (x : WordArray) : x.toBytes.length = x.sigBytes := by
  simp [WordArray.toBytes]

theorem toBytes_allLt (x : WordArray) : ∀ b ∈ x.toBytes, b < 256 := by
  intro b hb
  obtain ⟨i, hi, rfl⟩ := List.exists_of_mem_map hb
  exact byteAt_lt _ _

theorem toBytes_getD {x : WordArray} {i : Nat} (h : i < x.sigBytes) :
    x.toBytes.getD i 0 = byteAt x.words i := by
  rw [List.getD_eq_getElem?_getD, WordArray.toBytes, List.getElem?_map,
    List.getElem?_range h]
  rfl

theorem toBytes_getD_zero {x : WordArray} {i : Nat} (h : x.sigBytes ≤ i) :
    x.toBytes.getD i 0 = 0 := by
  rw [List.getD_eq_getElem?_getD, List.getElem?_eq_none (by simpa [toBytes_length])]
  rfl

theorem canonOf_WF {P : List Nat} (hP : ∀ b ∈ P, b < 256) : (canonOf P).WF :=
  packBytes_allLt hP

theorem toBytes_canonOf {P : List Nat} (hP : ∀ b ∈ P, b < 256) :
    (canonOf P).toBytes = P := by
  apply List.ext_getElem
  · simp [toBytes_length, canonOf]
  · intro i h1 h2
    have hi : i < P.length := h2
    have : (canonOf P).toBytes.getD i 0 = P.getD i 0 := by
      rw [toBytes_getD (x := canonOf P) (by simpa [canonOf] using hi)]
      exact byteAt_packBytes hP i
    rw [List.getD_eq_getElem?_getD, List.getD_eq_getElem?_getD,
      List.getElem?_eq_getElem h1, List.getElem?_eq_getElem h2] at this
    simpa using this

theorem byteAt_lane (ws : List Nat) (i j t : Nat) (hj : i / 4 = j) (ht : i % 4 = t) :
    byteAt ws i = getW ws j >>> (24 - t * 8) &&& 0xff := by
  unfold byteAt; rw [hj, ht]

theorem getElem_eq_getW {l : List Nat} {j : Nat} (h : j < l.length) : l[j] = getW l j := by
  rw [getW_eq, List.getElem?_eq_getElem h]; rfl

theorem and_hi1 (w : Nat) :
    w &&& 0xff000000 = packWord (w >>> 24 &&& 0xff) 0 0 0 := by
  rw [show (0xff000000 : Nat) = (2 ^ 8 - 1) <<< 24 by decide, and_shift_mask]
  have hb : w >>> 24 &&& 0xff = (w >>> 24) % 2 ^ 8 := by
    rw [show (0xff : Nat) = 2 ^ 8 - 1 by norm_num, Nat.and_pow_two_sub_one_eq_mod]
  rw [packWord, hb, Nat.zero_shiftLeft, Nat.zero_shiftLeft, Nat.or_zero,
    Nat.or_zero, Nat.or_zero]

theorem and_hi2 (w : Nat) :
    w &&& 0xffff0000 = packWord (w >>> 24 &&& 0xff) (w >>> 16 &&& 0xff) 0 0 := by
  rw [show (0xffff0000 : Nat) = (2 ^ 16 - 1) <<< 16 by decide, and_shift_mask]
  have h0 : w >>> 24 &&& 0xff < 256 := Nat.lt_succ_of_le Nat.and_le_right
  have h1 : w >>> 16 &&& 0xff < 256 := Nat.lt_succ_of_le Nat.and_le_right
  rw [packWord_eq_add h0 h1 (by norm_num) (by norm_num),
    shiftRight_and_byte, shiftRight_and_byte, Nat.shiftLeft_eq,
    Nat.shiftRight_eq_div_pow]
  have hq : w / 2 ^ 24 = w / 2 ^ 16 / 256 := by
    rw [Nat.div_div_eq_div_mul]; norm_num
  rw [hq]
  have h2 : w / 2 ^ 16 % 2 ^ 16 = w / 2 ^ 16 / 256 % 256 * 256 + w / 2 ^ 16 % 256 := by
    omega
  rw [h2]
  ring

theorem and_hi3 (w : Nat) :
    w &&& 0xffffff00 =
      packWord (w >>> 24 &&& 0xff) (w >>> 16 &&& 0xff) (w >>> 8 &&& 0xff) 0 := by
  rw [show (0xffffff00 : Nat) = (2 ^ 24 - 1) <<< 8 by decide, and_shift_mask]
  have h0 : w >>> 24 &&& 0xff < 256 := Nat.lt_succ_of_le Nat.and_le_right
  have h1 : w >>> 16 &&& 0xff < 256 := Nat.lt_succ_of_le Nat.and_le_right
  have h2 : w >>> 8 &&& 0xff < 256 := Nat.lt_succ_of_le Nat.and_le_right
  rw [packWord_eq_add h0 h1 h2 (by norm_num),
    shiftRight_and_byte, shiftRight_and_byte, shiftRight_and_byte, Nat.shiftLeft_eq,
    Nat.shiftRight_eq_div_pow]
  have hq1 : w / 2 ^ 24 = w / 2 ^ 8 / 65536 := by
    rw [Nat.div_div_eq_div_mul]; norm_num
  have hq2 : w / 2 ^ 16 = w / 2 ^ 8 / 256 := by
    rw [Nat.div_div_eq_div_mul]; norm_num
  rw [hq1, hq2]
  have h3 : w / 2 ^ 8 % 2 ^ 24 =
      w / 2 ^ 8 / 65536 % 256 * 65536 + w / 2 ^ 8 / 256 % 256 * 256 + w / 2 ^ 8 % 256 := by
    omega
  rw [h3]
  ring

/-- `clamp` rewrites a well-formed buffer into the canonical packing of its
significant bytes. -/
theorem clamp_canon (x : WordArray) (hx : x.WF) : x.clamp = canonOf x.toBytes := by
  unfold WordArray.clamp canonOf
  simp only [WordArray.mk.injEq]
  refine ⟨?_, (toBytes_length x).symm⟩
  set j := x.sigBytes / 4 with hj
  set r := x.sigBytes % 4 with hr
  apply List.ext_getElem
  · rw [List.length_take, length_setW, packBytes_length, toBytes_length]
    have : j + 1 ≥ (x.sigBytes + 3) / 4 := by omega
    omega
  · intro k h1 h2
    have hk : k < (x.sigBytes + 3) / 4 := by
      rw [List.length_take, length_setW] at h1; omega
    rw [getElem_eq_getW h1, getElem_eq_getW h2, getW_take hk, getW_packBytes]
    rcases eq_or_ne k j with hkj | hkj
    · -- the partial trailing word: `r ≠ 0` since otherwise `k < j`
      have hr4 : r < 4 := by omega
      have hrne : r ≠ 0 := by
        intro h0
        rw [hkj] at hk; omega
      rw [hkj, getW_setW_self]
      have hb : ∀ t, t < r →
          x.toBytes.getD (4 * j + t) 0 = getW x.words j >>> (24 - t * 8) &&& 0xff := by
        intro t ht
        have hlt : 4 * j + t < x.sigBytes := by omega
        rw [toBytes_getD hlt, byteAt_lane x.words (4 * j + t) j t (by omega) (by omega)]
      have hz : ∀ t, r ≤ t → x.toBytes.getD (4 * j + t) 0 = 0 := by
        intro t ht
        exact toBytes_getD_zero (by omega)
      have e0 : x.toBytes.getD (4 * j) 0 = getW x.words j >>> 24 &&& 0xff := by
        simpa using hb 0 (by omega)
      have hcase : r = 1 ∨ r = 2 ∨ r = 3 := by omega
      rcases hcase with h | h | h
      · rw [show (0xffffffff : Nat) <<< ((32 - r * 8) % 32) &&& 0xffffffff
            = 0xff000000 by rw [h]; decide]
        rw [and_hi1, e0, hz 1 (by omega), hz 2 (by omega), hz 3 (by omega)]
      · have e1 : x.toBytes.getD (4 * j + 1) 0 = getW x.words j >>> 16 &&& 0xff := by
          simpa using hb 1 (by omega)
        rw [show (0xffffffff : Nat) <<< ((32 - r * 8) % 32) &&& 0xffffffff
            = 0xffff0000 by rw [h]; decide]
        rw [and_hi2, e0, e1, hz 2 (by omega), hz 3 (by omega)]
      · have e1 : x.toBytes.getD (4 * j + 1) 0 = getW x.words j >>> 16 &&& 0xff := by
          simpa using hb 1 (by omega)
        have e2 : x.toBytes.getD (4 * j + 2) 0 = getW x.words j >>> 8 &&& 0xff := by
          simpa using hb 2 (by omega)
        rw [show (0xffffffff : Nat) <<< ((32 - r * 8) % 32) &&& 0xffffffff
            = 0xffffff00 by rw [h]; decide]
        rw [and_hi3, e0, e1, e2, hz 3 (by omega)]
    · -- a full word below the trailing one
      have hkj' : k < j := by omega
      rw [getW_setW_ne _ _ hkj]
      have hw32 : getW x.words k < 2 ^ 32 := by
        rcases Nat.lt_or_ge k x.words.length with h | h
        · exact getW_lt h hx
        · rw [getW_eq_zero h]; norm_num
      have hb : ∀ t, t < 4 →
          x.toBytes.getD (4 * k + t) 0 = getW x.words k >>> (24 - t * 8) &&& 0xff := by
        intro t ht
        have hlt : 4 * k + t < x.sigBytes := by omega
        rw [toBytes_getD hlt, byteAt_lane x.words (4 * k + t) k t (by omega) (by omega)]
      have e0 : x.toBytes.getD (4 * k) 0 = getW x.words k >>> 24 &&& 0xff := by
        simpa using hb 0 (by omega)
      have e1 : x.toBytes.getD (4 * k + 1) 0 = getW x.words k >>> 16 &&& 0xff := by
        simpa using hb 1 (by omega)
      have e2 : x.toBytes.getD (4 * k + 2) 0 = getW x.words k >>> 8 &&& 0xff := by
        simpa using hb 2 (by omega)
      have e3 : x.toBytes.getD (4 * k + 3) 0 = getW x.words k &&& 0xff := by
        have := hb 3 (by omega)
        simpa using this
      rw [e0, e1, e2, e3]
      exact (packWord_unpack hw32).symm

theorem getD_drop (l : List Nat) (n t : Nat) : (l.drop n).getD t 0 = l.getD (n + t) 0 := by
  simp [List.getD_eq_getElem?_getD, List.getElem?_drop]

theorem packBytes_one (a : Nat) : packBytes [a] = [packWord a 0 0 0] := by
  rw [packBytes]; simp [getW_nil, packBytes_nil]

theorem packBytes_two (a b : Nat) : packBytes [a, b] = [packWord a b 0 0] := by
  rw [packBytes]; simp [getW, packBytes_nil, List.getD]

theorem packBytes_three (a b c : Nat) : packBytes [a, b, c] = [packWord a b c 0] := by
  rw [packBytes]; simp [getW, packBytes_nil, List.getD]

theorem packBytes_four (a b c d : Nat) : packBytes [a, b, c, d] = [packWord a b c d] := by
  rw [packBytes]; simp [getW, packBytes_nil, List.getD]

/-- One iteration of the `concat` byte loop extends the canonical packing by
one byte. -/
theorem concat_step (P : List Nat) (b : Nat) (hb : b < 256) :
    setW (packBytes P) (P.length / 4)
      (getW (packBytes P) (P.length / 4) ||| b <<< (24 - P.length % 4 * 8)) =
    packBytes (P ++ [b]) := by
  have hr : P.length % 4 = 0 ∨ P.length % 4 = 1 ∨ P.length % 4 = 2 ∨ P.length % 4 = 3 := by
    omega
  rcases hr with h | h | h | h
  · -- aligned: a fresh word is appended
    have hlen : (packBytes P).length = P.length / 4 := by rw [packBytes_length]; omega
    have hout : getW (packBytes P) (P.length / 4) = 0 := getW_eq_zero (le_of_eq hlen)
    rw [hout, Nat.zero_or, setW_append_end _ hlen, h,
      packBytes_append [b] ⟨P.length / 4, by omega⟩, packBytes_one]
    simp [packWord, Nat.zero_shiftLeft, Nat.or_zero]
  · -- one byte already in the trailing word
    have hlen : (packBytes P).length = P.length / 4 + 1 := by rw [packBytes_length]; omega
    obtain ⟨q0, hQ⟩ := List.length_eq_one.mp
      (show (P.drop (4 * (P.length / 4))).length = 1 by rw [List.length_drop]; omega)
    have hq0 : P.getD (4 * (P.length / 4)) 0 = q0 := by
      have h0 := getD_drop P (4 * (P.length / 4)) 0
      rw [hQ] at h0
      simpa using h0.symm
    have hqt : ∀ t, 1 ≤ t → P.getD (4 * (P.length / 4) + t) 0 = 0 := by
      intro t ht
      rw [← getD_drop, hQ]
      rcases t with _ | t
      · omega
      · simp [List.getD]
    have hsplit : P ++ [b] = P.take (4 * (P.length / 4)) ++ (P.drop (4 * (P.length / 4)) ++ [b]) := by
      rw [← List.append_assoc, List.take_append_drop]
    rw [setW_last _ hlen, getW_packBytes, hq0,
      (by simpa using hqt 1 (by omega) : P.getD (4 * (P.length / 4) + 1) 0 = 0),
      (by simpa using hqt 2 (by omega) : P.getD (4 * (P.length / 4) + 2) 0 = 0),
      (by simpa using hqt 3 (by omega) : P.getD (4 * (P.length / 4) + 3) 0 = 0),
      ← packBytes_take, hsplit,
      packBytes_append _ (⟨P.length / 4, by rw [List.length_take]; omega⟩), hQ, h]
    simp only [List.cons_append, List.nil_append]
    rw [packBytes_two]
    simp [packWord, Nat.zero_shiftLeft, Nat.or_zero, Nat.lor_assoc]
  · -- two bytes already in the trailing word
    have hlen : (packBytes P).length = P.length / 4 + 1 := by rw [packBytes_length]; omega
    obtain ⟨q0, q1, hQ⟩ := List.length_eq_two.mp
      (show (P.drop (4 * (P.length / 4))).length = 2 by rw [List.length_drop]; omega)
    have hq0 : P.getD (4 * (P.length / 4)) 0 = q0 := by
      have h0 := getD_drop P (4 * (P.length / 4)) 0
      rw [hQ] at h0
      simpa using h0.symm
    have hq1 : P.getD (4 * (P.length / 4) + 1) 0 = q1 := by
      have h0 := getD_drop P (4 * (P.length / 4)) 1
      rw [hQ] at h0
      simpa using h0.symm
    have hqt : ∀ t, 2 ≤ t → P.getD (4 * (P.length / 4) + t) 0 = 0 := by
      intro t ht
      rw [← getD_drop, hQ]
      rcases t with _ | _ | t
      · omega
      · omega
      · simp [List.getD]
    have hsplit : P ++ [b] = P.take (4 * (P.length / 4)) ++ (P.drop (4 * (P.length / 4)) ++ [b]) := by
      rw [← List.append_assoc, List.take_append_drop]
    rw [setW_last _ hlen, getW_packBytes, hq0, hq1,
      (by simpa using hqt 2 (by omega) : P.getD (4 * (P.length / 4) + 2) 0 = 0),
      (by simpa using hqt 3 (by omega) : P.getD (4 * (P.length / 4) + 3) 0 = 0),
      ← packBytes_take, hsplit,
      packBytes_append _ (⟨P.length / 4, by rw [List.length_take]; omega⟩), hQ, h]
    simp only [List.cons_append, List.nil_append]
    rw [packBytes_three]
    simp [packWord, Nat.zero_shiftLeft, Nat.or_zero, Nat.lor_assoc]
  · -- three bytes already in the trailing word
    have hlen : (packBytes P).length = P.length / 4 + 1 := by rw [packBytes_length]; omega
    obtain ⟨q0, q1, q2, hQ⟩ := List.length_eq_three.mp
      (show (P.drop (4 * (P.length / 4))).length = 3 by rw [List.length_drop]; omega)
    have hq0 : P.getD (4 * (P.length / 4)) 0 = q0 := by
      have h0 := getD_drop P (4 * (P.length / 4)) 0
      rw [hQ] at h0
      simpa using h0.symm
    have hq1 : P.getD (4 * (P.length / 4) + 1) 0 = q1 := by
      have h0 := getD_drop P (4 * (P.length / 4)) 1
      rw [hQ] at h0
      simpa using h0.symm
    have hq2 : P.getD (4 * (P.length / 4) + 2) 0 = q2 := by
      have h0 := getD_drop P (4 * (P.length / 4)) 2
      rw [hQ] at h0
      simpa using h0.symm
    have hq3 : P.getD (4 * (P.length / 4) + 3) 0 = 0 := by
      have h0 := getD_drop P (4 * (P.length / 4)) 3
      rw [hQ] at h0
      simpa [List.getD] using h0.symm
    have hsplit : P ++ [b] = P.take (4 * (P.length / 4)) ++ (P.drop (4 * (P.length / 4)) ++ [b]) := by
      rw [← List.append_assoc, List.take_append_drop]
    rw [setW_last _ hlen, getW_packBytes, hq0, hq1, hq2, hq3,
      ← packBytes_take, hsplit,
      packBytes_append _ (⟨P.length / 4, by rw [List.length_take]; omega⟩), hQ, h]
    simp only [List.cons_append, List.nil_append]
    rw [packBytes_four]
    simp [packWord, Nat.zero_shiftLeft, Nat.or_zero, Nat.lor_assoc, Nat.shiftLeft_zero]

/-- The `concat` byte loop, run from a canonical state, produces the canonical
packing of the extended byte sequence. -/
theorem concatGo_canon (bw : List Nat) (cnt : Nat) :
    ∀ (P : List Nat) (i : Nat),
      WordArray.concatGo (packBytes P) P.length bw i cnt =
        (packBytes (P ++ (List.range cnt).map (fun t => byteAt bw (i + t))),
         P.length + cnt) := by
  induction cnt with
  | zero => intro P i; simp [WordArray.concatGo]
  | succ n ih =>
      intro P i
      rw [WordArray.concatGo, concat_step P (byteAt bw i) (byteAt_lt bw i)]
      have hlen : (P ++ [byteAt bw i]).length = P.length + 1 := by simp
      have := ih (P ++ [byteAt bw i]) (i + 1)
      rw [hlen] at this
      rw [this, List.append_assoc]
      have hmap : [byteAt bw i] ++ (List.range n).map (fun t => byteAt bw (i + 1 + t)) =
          (List.range (n + 1)).map (fun t => byteAt bw (i + t)) := by
        rw [List.range_succ_eq_map, List.map_cons, List.map_map]
        simp only [List.singleton_append, Nat.add_zero]
        congr 1
        apply List.map_congr_left
        intro a _
        simp [Function.comp]
        congr 1
        omega
      rw [hmap, show P.length + 1 + n = P.length + (n + 1) by omega]

/-- `concat` on a well-formed buffer is byte concatenation: the result is the
canonical packing of the two byte sequences. -/
theorem concat_canon (a b : WordArray) (ha : a.WF) :
    a.concat b = canonOf (a.toBytes ++ b.toBytes) := by
  simp only [WordArray.concat]
  rw [clamp_canon a ha]
  rw [show (canonOf a.toBytes).words = packBytes a.toBytes from rfl,
    show (canonOf a.toBytes).sigBytes = a.toBytes.length from rfl,
    concatGo_canon]
  have hmap : (List.range b.sigBytes).map (fun t => byteAt b.words (0 + t)) = b.toBytes := by
    apply List.map_congr_left
    intro t _
    rw [Nat.zero_add]
  rw [hmap]
  unfold canonOf
  simp [toBytes_length]

theorem getW_replicate {k : Nat} (w : Nat) {j : Nat} (h : j < k) :
    getW (List.replicate k w) j = w := by
  rw [getW_eq, List.getElem?_replicate]
  simp [h]

/-- A word array that is `m` bytes of the constant word `packWord n n n n`
reads back `m` copies of the byte `n`. -/
theorem toBytes_replicate_packWord (n k m : Nat) (hn : n < 256) (hm : m ≤ 4 * k) :
    WordArray.toBytes ⟨List.replicate k (packWord n n n n), m⟩ = List.replicate m n := by
  apply List.ext_getElem
  · simp [toBytes_length]
  · intro i h1 h2
    have him : i < m := by simpa [toBytes_length] using h1
    have hik : i / 4 < k := by omega
    have hbyte : byteAt (List.replicate k (packWord n n n n)) i = n := by
      have hp := byteAt_packWord hn hn hn hn
      have hr : i % 4 = 0 ∨ i % 4 = 1 ∨ i % 4 = 2 ∨ i % 4 = 3 := by omega
      rcases hr with h | h | h | h
      · rw [byteAt_lane _ i (i / 4) 0 rfl h, getW_replicate _ hik]
        simpa using hp.1
      · rw [byteAt_lane _ i (i / 4) 1 rfl h, getW_replicate _ hik]
        simpa using hp.2.1
      · rw [byteAt_lane _ i (i / 4) 2 rfl h, getW_replicate _ hik]
        simpa using hp.2.2.1
      · rw [byteAt_lane _ i (i / 4) 3 rfl h, getW_replicate _ hik]
        rw [show (24 - 3 * 8 : Nat) = 0 from rfl, Nat.shiftRight_zero]
        exact hp.2.2.2
    have : (WordArray.toBytes ⟨List.replicate k (packWord n n n n), m⟩).getD i 0 = n := by
      rw [toBytes_getD (x := ⟨List.replicate k (packWord n n n n), m⟩) him]
      exact hbyte
    rw [List.getD_eq_getElem?_getD, List.getElem?_eq_getElem h1] at this
    simpa using this

/-- A word array with a possibly negative significant byte count, produced by
operations that subtract an unchecked quantity from `sigBytes`. -/
structure WordArrayZ where
  words : List Nat
  sigBytes : Int
deriving DecidableEq, Repr

/-- View a word array as one with integer significant byte count. -/
def WordArray.toZ (x : WordArray) : WordArrayZ := ⟨x.words, (x.sigBytes : Int)⟩

/-- The significant bytes of a `WordArrayZ` (empty when the count is negative). -/
def WordArrayZ.toBytes (x : WordArrayZ) : List Nat :=
  (List.range x.sigBytes.toNat).map (byteAt x.words)

/- ### PKCS #5/7 padding (cipher-core.js lines 109-154) -/

namespace C_pad_PKCS5

/-- `pad(data, blockSize)` (cipher-core.js lines 118-138).
`nPaddingBytes = (blockSizeBytes - data.sigBytes % blockSizeBytes) || blockSizeBytes`
(the JS `||` takes the right operand when the left is 0 or NaN; for
`blockSize = 0` the JS NaN propagation also yields 0 padding bytes, matching
this model).  The padding word is built with 32-bit JS shifts, hence the
`% 2 ^ 32`. -/
def pad (data : WordArray) (blockSize : Nat) : WordArray :=
  let blockSizeBytes := blockSize * 4
  let n0 := blockSizeBytes - data.sigBytes % blockSizeBytes
  let nPaddingBytes := if n0 = 0 then blockSizeBytes else n0
  let paddingWord := (nPaddingBytes <<< 24) % 2 ^ 32 ||| (nPaddingBytes <<< 16) % 2 ^ 32 |||
    (nPaddingBytes <<< 8) % 2 ^ 32 ||| nPaddingBytes % 2 ^ 32
  let padding : WordArray := ⟨List.replicate ((nPaddingBytes + 3) / 4) paddingWord, nPaddingBytes⟩
  data.concat padding

/-- `unpad(data)` (cipher-core.js lines 147-153): read
`data.words[(data.sigBytes - 1) >>> 2] & 0xff` and subtract it from
`sigBytes` with no validation whatsoever, so the count may go negative.
For `sigBytes = 0` the JS index is `(-1) >>> 2 = 0x3fffffff`. -/
def unpad (data : WordArray) : WordArrayZ :=
  let idx := if data.sigBytes = 0 then 0x3fffffff else (data.sigBytes - 1) / 4
  let nPaddingBytes := getW data.words idx &&& 0xff
  ⟨data.words, (data.sigBytes : Int) - (nPaddingBytes : Int)⟩

end C_pad_PKCS5

theorem paddingWord_eq {n : Nat} (hn : n < 256) :
    (n <<< 24) % 2 ^ 32 ||| (n <<< 16) % 2 ^ 32 ||| (n <<< 8) % 2 ^ 32 ||| n % 2 ^ 32 =
      packWord n n n n := by
  rw [Nat.mod_eq_of_lt (by rw [Nat.shiftLeft_eq]; omega),
    Nat.mod_eq_of_lt (by rw [Nat.shiftLeft_eq]; omega),
    Nat.mod_eq_of_lt (by rw [Nat.shiftLeft_eq]; omega),
    Nat.mod_eq_of_lt (by omega)]
  rfl

/-- `pad` on a well-formed buffer and a block size of at most 63 words is the
canonical buffer holding the original bytes followed by `n` copies of the byte
`n`, where `n = blockSizeBytes - sigBytes % blockSizeBytes`. -/
theorem pad_canon (d : WordArray) (blockSize : Nat) (h1 : 1 ≤ blockSize)
    (h63 : blockSize ≤ 63) (hd : d.WF) :
    C_pad_PKCS5.pad d blockSize =
      canonOf (d.toBytes ++
        List.replicate (blockSize * 4 - d.sigBytes % (blockSize * 4)) (blockSize * 4 - d.sigBytes % (blockSize * 4))) := by
  have hbsb : 1 ≤ blockSize * 4 := by omega
  set n := blockSize * 4 - d.sigBytes % (blockSize * 4) with hn
  have hn1 : 1 ≤ n := by
    have := Nat.mod_lt d.sigBytes (show 0 < blockSize * 4 by omega)
    omega
  have hnb : n ≤ blockSize * 4 := by omega
  have hn256 : n < 256 := by omega
  show d.concat _ = _
  have hne : (if n = 0 then blockSize * 4 else n) = n := by
    simp [Nat.ne_of_gt hn1, (by omega : n ≠ 0)]
  rw [hne, paddingWord_eq hn256]
  rw [concat_canon d _ hd]
  congr 2
  exact toBytes_replicate_packWord n ((n + 3) / 4) n hn256 (by omega)

theorem getD_append_left {A B : List Nat} {i : Nat} (h : i < A.length) :
    (A ++ B).getD i 0 = A.getD i 0 := by
  simp [List.getD_eq_getElem?_getD, List.getElem?_append, h]

theorem getD_append_right {A B : List Nat} {i : Nat} (h : A.length ≤ i) :
    (A ++ B).getD i 0 = B.getD (i - A.length) 0 := by
  simp [List.getD_eq_getElem?_getD, List.getElem?_append, Nat.not_lt_of_le h]

theorem getD_replicate {m n i : Nat} (h : i < m) :
    (List.replicate m n).getD i 0 = n := by
  rw [List.getD_eq_getElem?_getD, List.getElem?_replicate]
  simp [h]

theorem pad_allLt (d : WordArray) (n : Nat) (hn : n < 256) :
    ∀ b ∈ d.toBytes ++ List.replicate n n, b < 256 := by
  intro b hb
  rcases List.mem_append.mp hb with h | h
  · exact toBytes_allLt d b h
  · rw [List.eq_of_mem_replicate h]; exact hn

/-- The full behaviour of PKCS#7 pad/unpad on block sizes whose padding value
fits in one byte (shared between several results). -/
theorem pkcs5_pad_unpad_core (d : WordArray) (blockSize : Nat) (hb1 : 1 ≤ blockSize)
    (hb63 : blockSize ≤ 63) (hd : d.WF) :
    (C_pad_PKCS5.pad d blockSize).sigBytes =
        d.sigBytes + (blockSize * 4 - d.sigBytes % (blockSize * 4)) ∧
    1 ≤ blockSize * 4 - d.sigBytes % (blockSize * 4) ∧
    blockSize * 4 - d.sigBytes % (blockSize * 4) ≤ blockSize * 4 ∧
    (d.sigBytes % (blockSize * 4) = 0 →
        blockSize * 4 - d.sigBytes % (blockSize * 4) = blockSize * 4) ∧
    (∀ i, i < d.sigBytes →
        byteAt (C_pad_PKCS5.pad d blockSize).words i = byteAt d.words i) ∧
    (∀ i, d.sigBytes ≤ i → i < (C_pad_PKCS5.pad d blockSize).sigBytes →
        byteAt (C_pad_PKCS5.pad d blockSize).words i =
          blockSize * 4 - d.sigBytes % (blockSize * 4)) ∧
    (C_pad_PKCS5.unpad (C_pad_PKCS5.pad d blockSize)).sigBytes = (d.sigBytes : Int) ∧
    (∀ i, i < d.sigBytes →
        byteAt (C_pad_PKCS5.unpad (C_pad_PKCS5.pad d blockSize)).words i =
          byteAt d.words i) := by
  have hmod : d.sigBytes % (blockSize * 4) < blockSize * 4 :=
    Nat.mod_lt _ (by omega)
  set n := blockSize * 4 - d.sigBytes % (blockSize * 4) with hn
  have hn1 : 1 ≤ n := by omega
  have hnb : n ≤ blockSize * 4 := by omega
  have hn256 : n < 256 := by omega
  have hpad := pad_canon d blockSize hb1 hb63 hd
  have hall : ∀ b ∈ d.toBytes ++ List.replicate n n, b < 256 := pad_allLt d n hn256
  set B := d.toBytes ++ List.replicate n n with hB
  have hBlen : B.length = d.sigBytes + n := by
    rw [hB, List.length_append, toBytes_length, List.length_replicate]
  have hsig : (C_pad_PKCS5.pad d blockSize).sigBytes = d.sigBytes + n := by
    rw [hpad]; show B.length = _; omega
  have hwords : (C_pad_PKCS5.pad d blockSize).words = packBytes B := by
    rw [hpad]; rfl
  have hbyteAt : ∀ i, byteAt (C_pad_PKCS5.pad d blockSize).words i = B.getD i 0 := by
    intro i
    rw [hwords]
    exact byteAt_packBytes hall i
  have horig : ∀ i, i < d.sigBytes →
      byteAt (C_pad_PKCS5.pad d blockSize).words i = byteAt d.words i := by
    intro i hi
    rw [hbyteAt i, hB, getD_append_left (by rw [toBytes_length]; omega), toBytes_getD hi]
  have hpadbytes : ∀ i, d.sigBytes ≤ i → i < (C_pad_PKCS5.pad d blockSize).sigBytes →
      byteAt (C_pad_PKCS5.pad d blockSize).words i = n := by
    intro i hi1 hi2
    rw [hsig] at hi2
    rw [hbyteAt i, hB, getD_append_right (by rw [toBytes_length]; omega)]
    rw [toBytes_length]
    exact getD_replicate (by omega)
  -- the total padded length is a multiple of 4
  have hq := Nat.div_add_mod d.sigBytes (blockSize * 4)
  have hrel : blockSize * 4 * (d.sigBytes / (blockSize * 4)) =
      4 * (blockSize * (d.sigBytes / (blockSize * 4))) := by ring
  have hdvd : d.sigBytes + n = 4 * (blockSize * (d.sigBytes / (blockSize * 4)) + blockSize) := by
    omega
  have hS4 : (d.sigBytes + n) % 4 = 0 := by omega
  have hS1 : 1 ≤ d.sigBytes + n := by omega
  -- unpad reads back the padding byte
  have hlast : byteAt (C_pad_PKCS5.pad d blockSize).words (d.sigBytes + n - 1) = n :=
    hpadbytes _ (by omega) (by omega)
  have hunpad : (C_pad_PKCS5.unpad (C_pad_PKCS5.pad d blockSize)).sigBytes =
      (d.sigBytes : Int) := by
    show ((C_pad_PKCS5.pad d blockSize).sigBytes : Int) -
        ((getW (C_pad_PKCS5.pad d blockSize).words
          (if (C_pad_PKCS5.pad d blockSize).sigBytes = 0 then 0x3fffffff
           else ((C_pad_PKCS5.pad d blockSize).sigBytes - 1) / 4) &&& 0xff : Nat) : Int) = _
    rw [hsig, if_neg (by omega)]
    have hlane : byteAt (C_pad_PKCS5.pad d blockSize).words (d.sigBytes + n - 1) =
        getW (C_pad_PKCS5.pad d blockSize).words ((d.sigBytes + n - 1) / 4) &&& 0xff := by
      rw [byteAt_lane _ _ ((d.sigBytes + n - 1) / 4) 3 rfl (by omega)]
      rw [show (24 - 3 * 8 : Nat) = 0 from rfl, Nat.shiftRight_zero]
    rw [← hlane, hlast]
    omega
  refine ⟨hsig, hn1, hnb, fun h0 => by omega, horig, hpadbytes, hunpad, ?_⟩
  intro i hi
  have : (C_pad_PKCS5.unpad (C_pad_PKCS5.pad d blockSize)).words =
      (C_pad_PKCS5.pad d blockSize).words := rfl
  rw [this]
  exact horig i hi

/-- C5 (amended): for a well-formed buffer and `1 ≤ blockSize ≤ 63` words
(so the padding byte value fits in a byte), PKCS#7 `pad` appends exactly
`n = blockSizeBytes - sigBytes % blockSizeBytes` bytes, each holding the value
`n` (so `n = blockSizeBytes` when the remainder is 0), with `1 ≤ n ≤
blockSizeBytes`, the original bytes are unchanged, and `unpad ∘ pad` restores
the significant bytes exactly. -/
theorem C5_pkcs5_pad_unpad (d : WordArray) (blockSize : Nat) (hb1 : 1 ≤ blockSize)
    (hb63 : blockSize ≤ 63) (hd : d.WF) :
    (C_pad_PKCS5.pad d blockSize).sigBytes =
        d.sigBytes + (blockSize * 4 - d.sigBytes % (blockSize * 4)) ∧
    1 ≤ blockSize * 4 - d.sigBytes % (blockSize * 4) ∧
    blockSize * 4 - d.sigBytes % (blockSize * 4) ≤ blockSize * 4 ∧
    (d.sigBytes % (blockSize * 4) = 0 →
        blockSize * 4 - d.sigBytes % (blockSize * 4) = blockSize * 4) ∧
    (∀ i, i < d.sigBytes →
        byteAt (C_pad_PKCS5.pad d blockSize).words i = byteAt d.words i) ∧
    (∀ i, d.sigBytes ≤ i → i < (C_pad_PKCS5.pad d blockSize).sigBytes →
        byteAt (C_pad_PKCS5.pad d blockSize).words i =
          blockSize * 4 - d.sigBytes % (blockSize * 4)) ∧
    (C_pad_PKCS5.unpad (C_pad_PKCS5.pad d blockSize)).sigBytes = (d.sigBytes : Int) ∧
    (∀ i, i < d.sigBytes →
        byteAt (C_pad_PKCS5.unpad (C_pad_PKCS5.pad d blockSize)).words i =
          byteAt d.words i) :=
  pkcs5_pad_unpad_core d blockSize hb1 hb63 hd

/-- C5 witness: the amended PKCS#7 round trip at a concrete 3-byte buffer with
block size 1 word. -/
theorem C5_pkcs5_pad_unpad_witness :
    (C_pad_PKCS5.unpad (C_pad_PKCS5.pad ⟨[0x01020304], 3⟩ 1)).sigBytes = ((3 : Nat) : Int) :=
  (C5_pkcs5_pad_unpad ⟨[0x01020304], 3⟩ 1 (by decide) (by decide)
    (by decide)).2.2.2.2.2.2.1

set_option maxRecDepth 4000 in
/-- C5 counterexample: at block size 64 words (`blockSizeBytes = 256`) the
padding byte value overflows a byte (the JS shifts wrap), `unpad` reads back 0,
and the round trip fails on the empty buffer: the claim as stated quantifies
over every block size. -/
theorem C5_counterexample :
    (C_pad_PKCS5.unpad (C_pad_PKCS5.pad ⟨[], 0⟩ 64)).sigBytes ≠ ((0 : Nat) : Int) := by
  decide

/-- C6 (amended): `unpad` performs no validation and never fails: for every
nonempty buffer it unconditionally subtracts the low byte of the word holding
the last significant byte (which is the last significant byte itself exactly
when `sigBytes` is a multiple of 4), and there is a buffer on which the
resulting count is negative. -/
theorem C6_unpad_no_validation (d : WordArray) (h : 1 ≤ d.sigBytes) :
    C_pad_PKCS5.unpad d =
      ⟨d.words, (d.sigBytes : Int) -
        ((getW d.words ((d.sigBytes - 1) / 4) &&& 0xff : Nat) : Int)⟩ ∧
    (d.sigBytes % 4 = 0 →
      C_pad_PKCS5.unpad d =
        ⟨d.words, (d.sigBytes : Int) - ((byteAt d.words (d.sigBytes - 1) : Nat) : Int)⟩) ∧
    (C_pad_PKCS5.unpad ⟨[5], 4⟩).sigBytes < 0 := by
  refine ⟨?_, ?_, by decide⟩
  · show (⟨d.words, (d.sigBytes : Int) -
        ((getW d.words (if d.sigBytes = 0 then 0x3fffffff else (d.sigBytes - 1) / 4) &&&
          0xff : Nat) : Int)⟩ : WordArrayZ) = _
    rw [if_neg (by omega)]
  · intro h4
    show (⟨d.words, (d.sigBytes : Int) -
        ((getW d.words (if d.sigBytes = 0 then 0x3fffffff else (d.sigBytes - 1) / 4) &&&
          0xff : Nat) : Int)⟩ : WordArrayZ) = _
    rw [if_neg (by omega)]
    have hlane : byteAt d.words (d.sigBytes - 1) =
        getW d.words ((d.sigBytes - 1) / 4) &&& 0xff := by
      rw [byteAt_lane _ _ ((d.sigBytes - 1) / 4) 3 rfl (by omega)]
      rw [show (24 - 3 * 8 : Nat) = 0 from rfl, Nat.shiftRight_zero]
    rw [hlane]

/-- C6 witness: on a word-aligned 4-byte buffer ending in byte 2 the count
drops from 4 to 2. -/
theorem C6_unpad_no_validation_witness :
    (1 ≤ (WordArray.mk [2] 4).sigBytes) ∧ (C_pad_PKCS5.unpad ⟨[2], 4⟩).sigBytes = 2 :=
  ⟨by decide, by
    have h := (C6_unpad_no_validation ⟨[2], 4⟩ (by decide)).1
    rw [h]
    decide⟩

/-- C6 counterexample: on a buffer whose `sigBytes` is not word-aligned,
`unpad` does not subtract the last significant byte (here byte index 2, value
3) but the low byte of its word (value 5): the claim's description fails. -/
theorem C6_counterexample :
    (C_pad_PKCS5.unpad ⟨[0x01020305], 3⟩).sigBytes ≠
      (3 : Int) - ((byteAt [0x01020305] 2 : Nat) : Int) := by
  decide

/- ### CBC mode (cipher-core.js lines 164-227) -/

namespace C_mode_CBC

/-- The `offset == 0` branch of `xorBlock`: `dataWords[i] ^= ivWords[i]` for
`i = 0 .. blockSize-1`. -/
def xorBlockIvGo (ivWords : List Nat) (dw : List Nat) (i : Nat) : Nat → List Nat
  | 0 => dw
  | cnt + 1 => xorBlockIvGo ivWords (setW dw i (getW dw i ^^^ getW ivWords i)) (i + 1) cnt

/-- The `offset != 0` branch of `xorBlock`:
`dataWords[offset + i] ^= dataWords[offset + i - blockSize]`. -/
def xorBlockPrevGo (blockSize offset : Nat) (dw : List Nat) (i : Nat) : Nat → List Nat
  | 0 => dw
  | cnt + 1 =>
      xorBlockPrevGo blockSize offset
        (setW dw (offset + i) (getW dw (offset + i) ^^^ getW dw (offset + i - blockSize)))
        (i + 1) cnt

/-- `xorBlock(dataWords, ivWords, offset, blockSize)` (cipher-core.js lines
212-224): XOR the block at `offset` with the IV (first block) or with the
previous block. -/
def xorBlock (dataWords ivWords : List Nat) (offset blockSize : Nat) : List Nat :=
  if offset = 0 then xorBlockIvGo ivWords dataWords 0 blockSize
  else xorBlockPrevGo blockSize offset dataWords 0 blockSize

end C_mode_CBC

/-- Apply an in-place block primitive to the `blockSize` words at `offset`
(the contract of `_encryptBlock(buffer, wordOffset)` / `_decryptBlock`). -/
def applyBlock (f : List Nat → List Nat) (ws : List Nat) (offset blockSize : Nat) :
    List Nat :=
  ws.take offset ++ f ((ws.drop offset).take blockSize) ++ ws.drop (offset + blockSize)

namespace C_mode_CBC

/-- The encrypt loop (cipher-core.js lines 183-186): `len` is
`messageWords.length`, captured before the loop; the fuel argument only bounds
the iteration count (`blockSize ≥ 1` makes it sufficient; `blockSize = 0`
would not terminate in JS either). -/
def encryptGo (enc : List Nat → List Nat) (ivWords : List Nat) (blockSize len : Nat) :
    Nat → Nat → List Nat → List Nat
  | 0, _, ws => ws
  | fuel + 1, offset, ws =>
      if offset < len then
        encryptGo enc ivWords blockSize len fuel (offset + blockSize)
          (applyBlock enc (xorBlock ws ivWords offset blockSize) offset blockSize)
      else ws

/-- `C_mode_CBC.encrypt` (cipher-core.js lines 175-187) on the word list of the
message, with the keyed `_encryptBlock` passed as a function. -/
def encrypt (enc : List Nat → List Nat) (blockSize : Nat) (ivWords ws : List Nat) :
    List Nat :=
  encryptGo enc ivWords blockSize ws.length (ws.length + 1) 0 ws

/-- The decrypt loop (cipher-core.js lines 205-208): offsets run from
`ciphertextWords.length - blockSize` down to 0. -/
def decryptGo (dec : List Nat → List Nat) (ivWords : List Nat) (blockSize : Nat) :
    Nat → Int → List Nat → List Nat
  | 0, _, ws => ws
  | fuel + 1, offset, ws =>
      if 0 ≤ offset then
        decryptGo dec ivWords blockSize fuel (offset - blockSize)
          (xorBlock (applyBlock dec ws offset.toNat blockSize) ivWords offset.toNat blockSize)
      else ws

/-- `C_mode_CBC.decrypt` (cipher-core.js lines 198-209). -/
def decrypt (dec : List Nat → List Nat) (blockSize : Nat) (ivWords ws : List Nat) :
    List Nat :=
  decryptGo dec ivWords blockSize (ws.length + 1) ((ws.length : Int) - (blockSize : Int)) ws

/-- Specification-level XOR of a block with a previous block or IV. -/
def cbcXor (blockSize : Nat) (b prev : List Nat) : List Nat :=
  (List.range blockSize).map (fun i => getW b i ^^^ getW prev i)

/-- CBC encryption, chunked: each ciphertext block is
`enc (plain block XOR previous ciphertext block)` (IV for the first). -/
def encChunks (enc : List Nat → List Nat) (blockSize : Nat) (prev : List Nat) :
    List (List Nat) → List (List Nat)
  | [] => []
  | b :: rest =>
      let c := enc (cbcXor blockSize b prev)
      c :: encChunks enc blockSize c rest

/-- CBC decryption, chunked: each plaintext block is
`dec (cipher block) XOR previous cipher block` (IV for the first). -/
def decChunks (dec : List Nat → List Nat) (blockSize : Nat) (prev : List Nat) :
    List (List Nat) → List (List Nat)
  | [] => []
  | c :: rest => cbcXor blockSize (dec c) prev :: decChunks dec blockSize c rest

end C_mode_CBC

/-- Split a word list into chunks of `bs` words (the last possibly short). -/
def chunksOf (bs : Nat) : List Nat → List (List Nat)
  | [] => []
  | w :: rest => (w :: rest.take (bs - 1)) :: chunksOf bs (rest.drop (bs - 1))
termination_by ws => ws.length
decreasing_by simp only [List.length_drop, List.length_cons]; omega

/- ### Block cipher primitive contract and engine (cipher-core.js 19-89, 234-266) -/

/-- The block cipher primitive contract (`_blockSize`, `_keySize`, `_ivSize`,
and the keyed in-place block transforms obtained after `_init(key)`). -/
structure BlockCipher where
  blockSize : Nat
  keySize : Nat
  ivSize : Nat
  encryptBlock : WordArray → List Nat → List Nat
  decryptBlock : WordArray → List Nat → List Nat

/-- The configuration consumed by the block template: `cfg.iv` (padding and
mode are the defaults `C_pad_PKCS5` and `C_mode_CBC`, the only strategies in
cipher-core.js). -/
structure Cfg where
  iv : WordArray

namespace C_lib_Cipher_Block

/-- `_doEncrypt` (cipher-core.js lines 244-251): pad, init with the key, CBC
encrypt in place (mode transforms only touch `words`). -/
def doEncrypt (C : BlockCipher) (key : WordArray) (cfg : Cfg) (message : WordArray) :
    WordArray :=
  let padded := C_pad_PKCS5.pad message C.blockSize
  ⟨C_mode_CBC.encrypt (C.encryptBlock key) C.blockSize cfg.iv.words padded.words,
   padded.sigBytes⟩

/-- `_doDecrypt` (cipher-core.js lines 253-260): init with the key, CBC decrypt
in place, unpad. -/
def doDecrypt (C : BlockCipher) (key : WordArray) (cfg : Cfg) (ciphertext : WordArray) :
    WordArrayZ :=
  C_pad_PKCS5.unpad
    ⟨C_mode_CBC.decrypt (C.decryptBlock key) C.blockSize cfg.iv.words ciphertext.words,
     ciphertext.sigBytes⟩

end C_lib_Cipher_Block

namespace C_lib_Cipher

/-- `Cipher.encrypt` on a buffer input (cipher-core.js lines 38-54): clone,
then `_doEncrypt`. -/
def encrypt (C : BlockCipher) (message key : WordArray) (cfg : Cfg) : WordArray :=
  C_lib_Cipher_Block.doEncrypt C key cfg message.clone

/-- `Cipher.decrypt` on a buffer input (cipher-core.js lines 68-84): clone,
then `_doDecrypt`. -/
def decrypt (C : BlockCipher) (ciphertext key : WordArray) (cfg : Cfg) : WordArrayZ :=
  C_lib_Cipher_Block.doDecrypt C key cfg ciphertext.clone

end C_lib_Cipher

theorem setW_append_at (pre : List Nat) (b0 : Nat) (rest : List Nat) (v : Nat) :
    setW (pre ++ b0 :: rest) pre.length v = pre ++ v :: rest := by
  induction pre with
  | nil => rfl
  | cons h t ih => simpa [setW] using ih

theorem getW_append_at (pre : List Nat) (b0 : Nat) (rest : List Nat) :
    getW (pre ++ b0 :: rest) pre.length = b0 := by
  rw [getW_append_right (le_refl _), Nat.sub_self]
  rfl

theorem getW_map_range {n k : Nat} (f : Nat → Nat) (h : k < n) :
    getW ((List.range n).map f) k = f k := by
  rw [getW_eq, List.getElem?_map, List.getElem?_range h]
  rfl

theorem map_range_getW {l : List Nat} {n : Nat} (h : l.length = n) :
    (List.range n).map (getW l) = l := by
  apply List.ext_getElem
  · simpa using h.symm
  · intro i h1 h2
    rw [List.getElem_map, List.getElem_range, getElem_eq_getW h2]

theorem cbcXor_length (bs : Nat) (b prev : List Nat) :
    (C_mode_CBC.cbcXor bs b prev).length = bs := by
  simp [C_mode_CBC.cbcXor]

theorem getW_cbcXor {bs k : Nat} (b prev : List Nat) (h : k < bs) :
    getW (C_mode_CBC.cbcXor bs b prev) k = getW b k ^^^ getW prev k :=
  getW_map_range _ h

/-- XOR-with-previous-or-IV is an involution on blocks of the right length. -/
theorem cbcXor_cancel {bs : Nat} {b : List Nat} (prev : List Nat) (hb : b.length = bs) :
    C_mode_CBC.cbcXor bs (C_mode_CBC.cbcXor bs b prev) prev = b := by
  show (List.range bs).map _ = b
  have hcg : ∀ k ∈ List.range bs,
      (fun i => getW (C_mode_CBC.cbcXor bs b prev) i ^^^ getW prev i) k = getW b k := by
    intro k hk
    show getW (C_mode_CBC.cbcXor bs b prev) k ^^^ getW prev k = getW b k
    rw [getW_cbcXor b prev (List.mem_range.mp hk), Nat.xor_cancel_right]
  rw [List.map_congr_left hcg]
  exact map_range_getW hb

theorem length_setW_within {dw : List Nat} {i : Nat} (v : Nat) (h : i < dw.length) :
    (setW dw i v).length = dw.length := by
  rw [length_setW]; omega

/-- Pointwise behaviour of the IV branch of `xorBlock`: positions
`i .. i+cnt-1` are XORed with the IV at the same index, the rest untouched. -/
theorem xorBlockIvGo_getW (ivWords : List Nat) (cnt : Nat) :
    ∀ (dw : List Nat) (i : Nat), i + cnt ≤ dw.length →
      (C_mode_CBC.xorBlockIvGo ivWords dw i cnt).length = dw.length ∧
      ∀ j, getW (C_mode_CBC.xorBlockIvGo ivWords dw i cnt) j =
        if i ≤ j ∧ j < i + cnt then getW dw j ^^^ getW ivWords j else getW dw j := by
  induction cnt with
  | zero =>
      intro dw i hle
      refine ⟨rfl, fun j => ?_⟩
      rw [if_neg (by omega)]
      rfl
  | succ n ih =>
      intro dw i hle
      rw [C_mode_CBC.xorBlockIvGo]
      have hi : i < dw.length := by omega
      have hlen' : (setW dw i (getW dw i ^^^ getW ivWords i)).length = dw.length :=
        length_setW_within _ hi
      obtain ⟨ihlen, ihget⟩ := ih (setW dw i (getW dw i ^^^ getW ivWords i)) (i + 1)
        (by omega)
      refine ⟨by rw [ihlen, hlen'], fun j => ?_⟩
      rw [ihget j]
      rcases Nat.lt_trichotomy j i with hj | hj | hj
      · rw [if_neg (by omega), if_neg (by omega), getW_setW_ne _ _ (by omega)]
      · subst hj
        rw [if_neg (by omega), if_pos (by omega), getW_setW_self]
      · rcases Nat.lt_or_ge j (i + 1 + n) with hj2 | hj2
        · rw [if_pos (by omega), if_pos (by omega), getW_setW_ne _ _ (by omega)]
        · rw [if_neg (by omega), if_neg (by omega), getW_setW_ne _ _ (by omega)]

/-- Pointwise behaviour of the previous-block branch of `xorBlock`: positions
`offset+i .. offset+i+cnt-1` are XORed with the word `blockSize` positions
earlier, which lies in the untouched region below `offset`. -/
theorem xorBlockPrevGo_getW (blockSize offset : Nat) (cnt : Nat) :
    ∀ (dw : List Nat) (i : Nat), offset + i + cnt ≤ dw.length → i + cnt ≤ blockSize →
      blockSize ≤ offset →
      (C_mode_CBC.xorBlockPrevGo blockSize offset dw i cnt).length = dw.length ∧
      ∀ j, getW (C_mode_CBC.xorBlockPrevGo blockSize offset dw i cnt) j =
        if offset + i ≤ j ∧ j < offset + i + cnt then
          getW dw j ^^^ getW dw (j - blockSize) else getW dw j := by
  induction cnt with
  | zero =>
      intro dw i hle hcnt hbs
      refine ⟨rfl, fun j => ?_⟩
      rw [if_neg (by omega)]
      rfl
  | succ n ih =>
      intro dw i hle hcnt hbs
      rw [C_mode_CBC.xorBlockPrevGo]
      have hi : offset + i < dw.length := by omega
      set v := getW dw (offset + i) ^^^ getW dw (offset + i - blockSize) with hv
      have hlen' : (setW dw (offset + i) v).length = dw.length := length_setW_within _ hi
      obtain ⟨ihlen, ihget⟩ := ih (setW dw (offset + i) v) (i + 1)
        (by omega) (by omega) hbs
      refine ⟨by rw [ihlen, hlen'], fun j => ?_⟩
      rw [ihget j]
      rcases Nat.lt_trichotomy j (offset + i) with hj | hj | hj
      · rw [if_neg (by omega), if_neg (by omega), getW_setW_ne _ _ (by omega)]
      · subst hj
        rw [if_neg (by omega), if_pos (by omega), getW_setW_self]
      · rcases Nat.lt_or_ge j (offset + (i + 1) + n) with hj2 | hj2
        · rw [if_pos (by omega), if_pos (by omega), getW_setW_ne _ _ (by omega),
            getW_setW_ne _ _ (by omega)]
        · rw [if_neg (by omega), if_neg (by omega), getW_setW_ne _ _ (by omega)]

theorem applyBlock_at (f : List Nat → List Nat) (done x t : List Nat) (bs : Nat)
    (hx : x.length = bs) :
    applyBlock f (done ++ x ++ t) done.length bs = done ++ f x ++ t := by
  unfold applyBlock
  have hA : done ++ x ++ t = done ++ (x ++ t) := by rw [List.append_assoc]
  rw [hA, List.take_left, List.drop_left]
  have h1 : (x ++ t).take bs = x := by rw [← hx, List.take_left]
  have h2 : (done ++ (x ++ t)).drop (done.length + bs) = t := by
    rw [← List.append_assoc, show done.length + bs = (done ++ x).length by simp [hx],
      List.drop_left]
  rw [h1, h2, List.append_assoc]

/-- `xorBlock` at offset 0 XORs the first block with the IV. -/
theorem xorBlock_spec_iv (ivWords b t : List Nat) (bs : Nat) (hb : b.length = bs) :
    C_mode_CBC.xorBlock (b ++ t) ivWords 0 bs = C_mode_CBC.cbcXor bs b ivWords ++ t := by
  unfold C_mode_CBC.xorBlock
  rw [if_pos rfl]
  obtain ⟨hlen, hget⟩ := xorBlockIvGo_getW ivWords bs (b ++ t) 0 (by simp [hb])
  apply List.ext_getElem
  · rw [hlen]; simp [hb, cbcXor_length]
  · intro j h1 h2
    rw [getElem_eq_getW h1, getElem_eq_getW h2, hget j]
    rcases Nat.lt_or_ge j bs with hj | hj
    · have e1 : getW (b ++ t) j = getW b j := getW_append_left (by omega)
      have e2 : getW (C_mode_CBC.cbcXor bs b ivWords ++ t) j =
          getW (C_mode_CBC.cbcXor bs b ivWords) j :=
        getW_append_left (by rw [cbcXor_length]; omega)
      rw [if_pos (by omega), e1, e2, getW_cbcXor _ _ hj]
    · have e1 : getW (b ++ t) j = getW t (j - b.length) := getW_append_right (by omega)
      have e2 : getW (C_mode_CBC.cbcXor bs b ivWords ++ t) j =
          getW t (j - (C_mode_CBC.cbcXor bs b ivWords).length) :=
        getW_append_right (by rw [cbcXor_length]; omega)
      rw [if_neg (by omega), e1, e2, hb, cbcXor_length]

/-- `xorBlock` at a nonzero offset XORs the block there with the previous
block, the last `bs` words of the prefix. -/
theorem xorBlock_spec_prev (ivWords done b t : List Nat) (bs : Nat) (hbs1 : 1 ≤ bs)
    (hb : b.length = bs) (hbs : bs ≤ done.length) (hne : done.length ≠ 0) :
    C_mode_CBC.xorBlock (done ++ b ++ t) ivWords done.length bs =
      done ++ C_mode_CBC.cbcXor bs b (done.drop (done.length - bs)) ++ t := by
  unfold C_mode_CBC.xorBlock
  rw [if_neg hne]
  obtain ⟨hlen, hget⟩ := xorBlockPrevGo_getW bs done.length bs (done ++ b ++ t) 0
    (by simp only [List.length_append, hb]; omega) (by omega) hbs
  set X := C_mode_CBC.cbcXor bs b (done.drop (done.length - bs)) with hX
  have hXlen : X.length = bs := cbcXor_length _ _ _
  have hA : done ++ b ++ t = done ++ (b ++ t) := by rw [List.append_assoc]
  have hB : done ++ X ++ t = done ++ (X ++ t) := by rw [List.append_assoc]
  apply List.ext_getElem
  · rw [hlen]
    simp only [List.length_append, hb, hXlen]
  · intro j h1 h2
    rw [getElem_eq_getW h1, getElem_eq_getW h2, hget j]
    simp only [Nat.add_zero]
    rcases Nat.lt_trichotomy j done.length with hj | hj | hj
    · have e1 : getW (done ++ b ++ t) j = getW done j := by
        rw [hA]; exact getW_append_left (by omega)
      have e2 : getW (done ++ X ++ t) j = getW done j := by
        rw [hB]; exact getW_append_left (by omega)
      rw [if_neg (by omega), e1, e2]
    · -- the block being XORed
      have hjlo : done.length ≤ j := by omega
      rcases Nat.lt_or_ge j (done.length + bs) with hj2 | hj2
      · have e1 : getW (done ++ b ++ t) j = getW b (j - done.length) := by
          rw [hA, getW_append_right hjlo]
          exact getW_append_left (by omega)
        have e2 : getW (done ++ X ++ t) j = getW X (j - done.length) := by
          rw [hB, getW_append_right hjlo]
          exact getW_append_left (by omega)
        have e3 : getW (done ++ b ++ t) (j - bs) = getW done (j - bs) := by
          rw [hA]; exact getW_append_left (by omega)
        have e4 : getW (done.drop (done.length - bs)) (j - done.length) =
            getW done (j - bs) := by
          rw [getW_drop]
          congr 1
          omega
        rw [if_pos (by omega), e1, e2, e3, hX, getW_cbcXor _ _ (by omega), e4]
      · exact absurd hj2 (by omega)
    · have hjlo : done.length ≤ j := by omega
      rcases Nat.lt_or_ge j (done.length + bs) with hj2 | hj2
      · have e1 : getW (done ++ b ++ t) j = getW b (j - done.length) := by
          rw [hA, getW_append_right hjlo]
          exact getW_append_left (by omega)
        have e2 : getW (done ++ X ++ t) j = getW X (j - done.length) := by
          rw [hB, getW_append_right hjlo]
          exact getW_append_left (by omega)
        have e3 : getW (done ++ b ++ t) (j - bs) = getW done (j - bs) := by
          rw [hA]; exact getW_append_left (by omega)
        have e4 : getW (done.drop (done.length - bs)) (j - done.length) =
            getW done (j - bs) := by
          rw [getW_drop]
          congr 1
          omega
        rw [if_pos (by omega), e1, e2, e3, hX, getW_cbcXor _ _ (by omega), e4]
      · have e1 : getW (done ++ b ++ t) j = getW t (j - done.length - bs) := by
          rw [hA, getW_append_right hjlo, getW_append_right (by omega)]
          rw [hb]
        have e2 : getW (done ++ X ++ t) j = getW t (j - done.length - bs) := by
          rw [hB, getW_append_right hjlo, getW_append_right (by omega)]
          rw [hXlen]
        rw [if_neg (by omega), e1, e2]

theorem flatten_length_uniform {cs : List (List Nat)} {bs : Nat}
    (h : ∀ c ∈ cs, c.length = bs) : cs.flatten.length = bs * cs.length := by
  induction cs with
  | nil => simp
  | cons c rest ih =>
      rw [List.flatten_cons, List.length_append, h c (by simp),
        ih (fun c hc => h c (by simp [hc])), List.length_cons]
      ring

/-- `chunksOf` on a list whose length is a positive multiple of `bs` yields
chunks of length `bs` that flatten back to the list. -/
theorem chunksOf_spec (bs : Nat) (hbs : 1 ≤ bs) :
    ∀ ws : List Nat, bs ∣ ws.length →
      (∀ c ∈ chunksOf bs ws, c.length = bs) ∧ (chunksOf bs ws).flatten = ws := by
  intro ws
  induction ws using chunksOf.induct bs with
  | case1 =>
      intro hdvd
      constructor
      · intro c hc
        rw [chunksOf] at hc
        simp at hc
      · rw [chunksOf]; rfl
  | case2 w rest ih =>
      intro hdvd
      have hlen : bs ≤ rest.length + 1 :=
        Nat.le_of_dvd (by omega) (by simpa using hdvd)
      have hdvd' : bs ∣ (rest.drop (bs - 1)).length := by
        have hdvd2 : bs ∣ rest.length + 1 - bs :=
          Nat.dvd_sub' (by simpa using hdvd) dvd_rfl
        have hlen2 : (rest.drop (bs - 1)).length = rest.length + 1 - bs := by
          rw [List.length_drop]; omega
        rw [hlen2]
        exact hdvd2
      obtain ⟨ih1, ih2⟩ := ih hdvd'
      constructor
      · intro c hc
        rw [chunksOf] at hc
        rcases List.mem_cons.mp hc with h | h
        · rw [h, List.length_cons, List.length_take]
          omega
        · exact ih1 c h
      · rw [chunksOf, List.flatten_cons, ih2, List.cons_append,
          List.take_append_drop]

theorem encChunks_length (enc : List Nat → List Nat) (bs : Nat)
    (hlen : ∀ b, b.length = bs → (enc b).length = bs) :
    ∀ (cs : List (List Nat)) (prev : List Nat),
      (∀ c ∈ C_mode_CBC.encChunks enc bs prev cs, c.length = bs) ∧
      (C_mode_CBC.encChunks enc bs prev cs).length = cs.length := by
  intro cs
  induction cs with
  | nil => intro prev; simp [C_mode_CBC.encChunks]
  | cons c rest ih =>
      intro prev
      rw [C_mode_CBC.encChunks]
      obtain ⟨ih1, ih2⟩ := ih (enc (C_mode_CBC.cbcXor bs c prev))
      constructor
      · intro x hx
        rcases List.mem_cons.mp hx with h | h
        · rw [h]; exact hlen _ (cbcXor_length bs c prev)
        · exact ih1 x h
      · simp [ih2]

/-- `decChunks` over a snoc: the last block is decrypted and XORed with the
previous cipher block (the IV when there is none). -/
theorem decChunks_snoc (dec : List Nat → List Nat) (bs : Nat) :
    ∀ (init : List (List Nat)) (prev c : List Nat),
      C_mode_CBC.decChunks dec bs prev (init ++ [c]) =
        C_mode_CBC.decChunks dec bs prev init ++
          [C_mode_CBC.cbcXor bs (dec c) (init.getLastD prev)] := by
  intro init
  induction init with
  | nil => intro prev c; simp [C_mode_CBC.decChunks, List.getLastD]
  | cons x rest ih =>
      intro prev c
      rw [List.cons_append, C_mode_CBC.decChunks, C_mode_CBC.decChunks, ih x c,
        List.cons_append]
      congr 2
      cases rest <;> simp [List.getLastD]

/-- CBC chunk-level round trip: decrypting the encrypted chunk sequence with
the inverse block function restores the plaintext chunks. -/
theorem decChunks_encChunks (enc dec : List Nat → List Nat) (bs : Nat)
    (hinv : ∀ b, b.length = bs → dec (enc b) = b) :
    ∀ (cs : List (List Nat)) (prev : List Nat), (∀ c ∈ cs, c.length = bs) →
      C_mode_CBC.decChunks dec bs prev (C_mode_CBC.encChunks enc bs prev cs) = cs := by
  intro cs
  induction cs with
  | nil => intro prev h; rfl
  | cons c rest ih =>
      intro prev h
      rw [C_mode_CBC.encChunks, C_mode_CBC.decChunks,
        hinv _ (cbcXor_length bs c prev),
        cbcXor_cancel prev (h c (by simp)),
        ih _ (fun x hx => h x (by simp [hx]))]

/-- The CBC encrypt loop computes the chunked CBC encryption: `done` is the
already-encrypted prefix, `prev` the IV (at the start) or the last encrypted
block. -/
theorem encryptGo_chunks (enc : List Nat → List Nat) (ivW : List Nat) (bs : Nat)
    (hbs : 1 ≤ bs) (hlen : ∀ b : List Nat, b.length = bs → (enc b).length = bs) :
    ∀ (cs : List (List Nat)) (done : List Nat) (fuel len : Nat) (prev : List Nat),
      (∀ c ∈ cs, c.length = bs) →
      len = done.length + bs * cs.length →
      cs.length < fuel →
      ((done = [] ∧ prev = ivW) ∨
        (bs ≤ done.length ∧ done.length ≠ 0 ∧ prev = done.drop (done.length - bs))) →
      C_mode_CBC.encryptGo enc ivW bs len fuel done.length (done ++ cs.flatten) =
        done ++ (C_mode_CBC.encChunks enc bs prev cs).flatten := by
  intro cs
  induction cs with
  | nil =>
      intro done fuel len prev hc hlen2 hfuel hprev
      rcases fuel with _ | f
      · omega
      rw [C_mode_CBC.encryptGo,
        if_neg (by simp only [List.length_nil, Nat.mul_zero] at hlen2; omega)]
      simp [C_mode_CBC.encChunks]
  | cons c rest ih =>
      intro done fuel len prev hc hlen2 hfuel hprev
      rcases fuel with _ | f
      · omega
      have hclen : c.length = bs := hc c (by simp)
      have hmul : bs * (c :: rest).length = bs * rest.length + bs := by
        rw [List.length_cons]; ring
      rw [C_mode_CBC.encryptGo, if_pos (by omega)]
      have hxor : C_mode_CBC.xorBlock (done ++ (c :: rest).flatten) ivW done.length bs =
          done ++ C_mode_CBC.cbcXor bs c prev ++ rest.flatten := by
        rcases hprev with ⟨hd, hp⟩ | ⟨hble, hne, hp⟩
        · subst hd
          rw [hp]
          simp only [List.nil_append, List.flatten_cons, List.length_nil]
          exact xorBlock_spec_iv ivW c rest.flatten bs hclen
        · subst hp
          rw [List.flatten_cons, ← List.append_assoc]
          exact xorBlock_spec_prev ivW done c rest.flatten bs hbs hclen hble hne
      rw [hxor,
        applyBlock_at enc done (C_mode_CBC.cbcXor bs c prev) rest.flatten bs
          (cbcXor_length bs c prev)]
      set e := enc (C_mode_CBC.cbcXor bs c prev) with he
      have helen : e.length = bs := hlen _ (cbcXor_length bs c prev)
      have hstep : done.length + bs = (done ++ e).length := by
        simp [helen]
      have hws : done ++ e ++ rest.flatten = (done ++ e) ++ rest.flatten := rfl
      rw [hstep, hws]
      have hdrop : (done ++ e).drop ((done ++ e).length - bs) = e := by
        rw [show (done ++ e).length - bs = done.length by simp [helen], List.drop_left]
      rw [ih (done ++ e) f len e (fun x hx => hc x (by simp [hx]))
        (by simp only [List.length_append, helen]; omega)
        (by simp only [List.length_cons] at hfuel; omega)
        (Or.inr ⟨by simp [helen], by simp [helen]; omega, hdrop.symm⟩)]
      rw [C_mode_CBC.encChunks, List.flatten_cons, ← he, List.append_assoc]

/-- The CBC decrypt loop, run from the last block down, computes the chunked
CBC decryption. -/
theorem decryptGo_chunks (dec : List Nat → List Nat) (ivW : List Nat) (bs : Nat)
    (hbs : 1 ≤ bs) (hdlen : ∀ c : List Nat, c.length = bs → (dec c).length = bs) :
    ∀ (cs : List (List Nat)) (tail : List Nat) (fuel : Nat),
      (∀ c ∈ cs, c.length = bs) → cs.length < fuel →
      C_mode_CBC.decryptGo dec ivW bs fuel ((cs.flatten.length : Int) - (bs : Int))
          (cs.flatten ++ tail) =
        (C_mode_CBC.decChunks dec bs ivW cs).flatten ++ tail := by
  intro cs
  induction cs using List.reverseRecOn with
  | nil =>
      intro tail fuel hc hfuel
      rcases fuel with _ | f
      · omega
      rw [C_mode_CBC.decryptGo, if_neg (by simp only [List.flatten_nil, List.length_nil]; omega)]
      simp [C_mode_CBC.decChunks]
  | append_singleton init c ih =>
      intro tail fuel hc hfuel
      rcases fuel with _ | f
      · omega
      have hclen : c.length = bs := hc c (by simp)
      have hinitlen : ∀ x ∈ init, x.length = bs := fun x hx => hc x (by simp [hx])
      have hflatc : (init ++ [c]).flatten = init.flatten ++ c := by
        rw [List.flatten_append]; simp
      have hlenc : (init ++ [c]).flatten.length = init.flatten.length + bs := by
        rw [hflatc]; simp [hclen]
      rw [C_mode_CBC.decryptGo, if_pos (by rw [hlenc]; push_cast; omega)]
      have htn : (((init ++ [c]).flatten.length : Int) - (bs : Int)).toNat =
          init.flatten.length := by
        rw [hlenc]; omega
      rw [htn]
      have hws : (init ++ [c]).flatten ++ tail = init.flatten ++ c ++ tail := by
        rw [hflatc, List.append_assoc, ← List.append_assoc]
      rw [hws, applyBlock_at dec init.flatten c tail bs hclen]
      have hxor : C_mode_CBC.xorBlock (init.flatten ++ dec c ++ tail) ivW
          init.flatten.length bs =
          init.flatten ++ C_mode_CBC.cbcXor bs (dec c) (init.getLastD ivW) ++ tail := by
        rcases List.eq_nil_or_concat init with hinit | ⟨init', p, hinit0⟩
        · subst hinit
          simp only [List.flatten_nil, List.nil_append, List.length_nil, List.getLastD]
          exact xorBlock_spec_iv ivW (dec c) tail bs (hdlen c hclen)
        · have hinit : init = init' ++ [p] := by rw [hinit0, List.concat_eq_append]
          have hplen : p.length = bs := hinitlen p (by rw [hinit]; simp)
          have hfl : init.flatten = init'.flatten ++ p := by
            rw [hinit, List.flatten_append]; simp
          have hble : bs ≤ init.flatten.length := by
            rw [hfl]; simp [hplen]
          have hne : init.flatten.length ≠ 0 := by omega
          have hdropp : init.flatten.drop (init.flatten.length - bs) = p := by
            rw [hfl, show (init'.flatten ++ p).length - bs = init'.flatten.length by
              simp [hplen], List.drop_left]
          have hlast : init.getLastD ivW = p := by
            rw [hinit]; exact List.getLastD_concat _ _ _
          rw [hlast, ← hdropp]
          exact xorBlock_spec_prev ivW init.flatten (dec c) tail bs hbs
            (hdlen c hclen) hble hne
      rw [hxor]
      have hoffrec : ((init ++ [c]).flatten.length : Int) - (bs : Int) - (bs : Int) =
          ((init.flatten.length : Int) - (bs : Int)) := by
        rw [hlenc]; push_cast; ring
      have hws2 : init.flatten ++ C_mode_CBC.cbcXor bs (dec c) (init.getLastD ivW) ++ tail =
          init.flatten ++ (C_mode_CBC.cbcXor bs (dec c) (init.getLastD ivW) ++ tail) := by
        rw [List.append_assoc]
      rw [hoffrec, hws2, ih _ f hinitlen (by simp at hfuel; omega)]
      rw [decChunks_snoc, List.flatten_append]
      simp [List.append_assoc]

/-- C1: for every block cipher whose keyed `decryptBlock` inverts
`encryptBlock` (and preserves block length), every key, every IV, and every
well-formed message buffer (any length, including zero and non-block-aligned),
the block engine with its only mode (CBC) and only padding (PKCS#7) satisfies
`decrypt (encrypt m key cfg) key cfg = m` on the significant bytes, for block
sizes of 1..63 words (the padding byte must fit in a byte, see C5). -/
theorem C1_cipher_roundtrip (C : BlockCipher) (key : WordArray) (cfg : Cfg)
    (m : WordArray) (hbs1 : 1 ≤ C.blockSize) (hbs63 : C.blockSize ≤ 63) (hm : m.WF)
    (helen : ∀ b : List Nat, b.length = C.blockSize →
      (C.encryptBlock key b).length = C.blockSize)
    (hdlen : ∀ b : List Nat, b.length = C.blockSize →
      (C.decryptBlock key b).length = C.blockSize)
    (hinv : ∀ b : List Nat, b.length = C.blockSize →
      C.decryptBlock key (C.encryptBlock key b) = b) :
    (C_lib_Cipher.decrypt C (C_lib_Cipher.encrypt C m key cfg) key cfg).sigBytes =
      (m.sigBytes : Int) ∧
    (C_lib_Cipher.decrypt C (C_lib_Cipher.encrypt C m key cfg) key cfg).toBytes =
      m.toBytes := by
  have hmod : m.sigBytes % (C.blockSize * 4) < C.blockSize * 4 :=
    Nat.mod_lt _ (by omega)
  set bs := C.blockSize with hbsdef
  set n := bs * 4 - m.sigBytes % (bs * 4) with hn
  have hcore := pkcs5_pad_unpad_core m bs hbs1 hbs63 hm
  have hpad := pad_canon m bs hbs1 hbs63 hm
  have hq := Nat.div_add_mod m.sigBytes (bs * 4)
  have hrel : bs * 4 * (m.sigBytes / (bs * 4)) = 4 * (bs * (m.sigBytes / (bs * 4))) := by
    ring
  have hdvd : m.sigBytes + n = 4 * (bs * (m.sigBytes / (bs * 4)) + bs) := by omega
  set B := m.toBytes ++ List.replicate n n with hB
  have hBlen : B.length = m.sigBytes + n := by
    rw [hB]; simp [toBytes_length]
  have hwl : (packBytes B).length = bs * (m.sigBytes / (bs * 4)) + bs := by
    rw [packBytes_length, hBlen]; omega
  have hbsdvd : bs ∣ (packBytes B).length := by
    rw [hwl]
    exact ⟨m.sigBytes / (bs * 4) + 1, by ring⟩
  obtain ⟨hcs_len, hcs_flat⟩ := chunksOf_spec bs hbs1 (packBytes B) hbsdvd
  set cs := chunksOf bs (packBytes B) with hcs
  have hflatlen : cs.flatten.length = bs * cs.length := flatten_length_uniform hcs_len
  have hcs_count : cs.length ≤ cs.flatten.length := by
    calc cs.length ≤ bs * cs.length := Nat.le_mul_of_pos_left _ (by omega)
    _ = cs.flatten.length := hflatlen.symm
  have hpadded_words : (C_pad_PKCS5.pad m bs).words = packBytes B := by rw [hpad]; rfl
  have hpadded_sig : (C_pad_PKCS5.pad m bs).sigBytes = B.length := by rw [hpad]; rfl
  set cs' := C_mode_CBC.encChunks (C.encryptBlock key) bs cfg.iv.words cs with hcs'
  obtain ⟨hcs'_len, hcs'_count⟩ :=
    encChunks_length (C.encryptBlock key) bs helen cs cfg.iv.words
  have hclone : m.clone = m := rfl
  -- the encryption result
  have hencW : C_mode_CBC.encrypt (C.encryptBlock key) bs cfg.iv.words (packBytes B) =
      cs'.flatten := by
    unfold C_mode_CBC.encrypt
    have hb := encryptGo_chunks (C.encryptBlock key) cfg.iv.words bs hbs1 helen cs []
      (cs.flatten.length + 1) cs.flatten.length cfg.iv.words hcs_len
      (by simpa using hflatlen) (by omega) (Or.inl ⟨rfl, rfl⟩)
    simp only [List.nil_append, List.length_nil] at hb
    rw [← hcs_flat]
    exact hb
  have henc : C_lib_Cipher.encrypt C m key cfg = ⟨cs'.flatten, B.length⟩ := by
    unfold C_lib_Cipher.encrypt C_lib_Cipher_Block.doEncrypt
    rw [hclone]
    simp only [WordArray.mk.injEq]
    exact ⟨by rw [hpadded_words, hencW], hpadded_sig⟩
  -- the decryption result, before unpadding, is the padded plaintext
  have hflatlen' : cs'.flatten.length = bs * cs'.length := flatten_length_uniform hcs'_len
  have hdecW : C_mode_CBC.decrypt (C.decryptBlock key) bs cfg.iv.words cs'.flatten =
      packBytes B := by
    unfold C_mode_CBC.decrypt
    have hb := decryptGo_chunks (C.decryptBlock key) cfg.iv.words bs hbs1 hdlen cs' []
      (cs'.flatten.length + 1) hcs'_len
      (by
        calc cs'.length ≤ bs * cs'.length := Nat.le_mul_of_pos_left _ (by omega)
        _ = cs'.flatten.length := hflatlen'.symm
        _ < cs'.flatten.length + 1 := by omega)
    simp only [List.append_nil] at hb
    rw [hb, hcs', decChunks_encChunks (C.encryptBlock key) (C.decryptBlock key) bs
      (fun b hbb => hinv b hbb) cs cfg.iv.words hcs_len, hcs_flat]
  have hdec : C_lib_Cipher.decrypt C (C_lib_Cipher.encrypt C m key cfg) key cfg =
      C_pad_PKCS5.unpad (C_pad_PKCS5.pad m bs) := by
    rw [henc]
    unfold C_lib_Cipher.decrypt C_lib_Cipher_Block.doDecrypt
    have hcl : (⟨cs'.flatten, B.length⟩ : WordArray).clone = ⟨cs'.flatten, B.length⟩ := rfl
    rw [hcl]
    have harg : (⟨C_mode_CBC.decrypt (C.decryptBlock key) bs cfg.iv.words cs'.flatten,
        B.length⟩ : WordArray) = C_pad_PKCS5.pad m bs := by
      rw [hdecW, hpad]
      rfl
    rw [harg]
  refine ⟨by rw [hdec]; exact hcore.2.2.2.2.2.2.1, ?_⟩
  rw [hdec]
  have hsg : (C_pad_PKCS5.unpad (C_pad_PKCS5.pad m bs)).sigBytes.toNat = m.sigBytes := by
    rw [hcore.2.2.2.2.2.2.1]
    omega
  unfold WordArrayZ.toBytes WordArray.toBytes
  rw [hsg]
  apply List.map_congr_left
  intro i hi
  exact hcore.2.2.2.2.2.2.2 i (List.mem_range.mp hi)

/-- C1 witness: a 1-word-block involutive cipher (XOR with a constant), a
3-byte message, concrete key and IV. -/
theorem C1_cipher_roundtrip_witness :
    (C_lib_Cipher.decrypt
        ⟨1, 1, 1, fun _ b => b.map (fun w => w ^^^ 0x55), fun _ b => b.map (fun w => w ^^^ 0x55)⟩
        (C_lib_Cipher.encrypt
          ⟨1, 1, 1, fun _ b => b.map (fun w => w ^^^ 0x55), fun _ b => b.map (fun w => w ^^^ 0x55)⟩
          ⟨[0xdeadbeef], 3⟩ ⟨[], 0⟩ ⟨⟨[0x0badf00d], 4⟩⟩)
        ⟨[], 0⟩ ⟨⟨[0x0badf00d], 4⟩⟩).toBytes =
      (⟨[0xdeadbeef], 3⟩ : WordArray).toBytes :=
  (C1_cipher_roundtrip
    ⟨1, 1, 1, fun _ b => b.map (fun w => w ^^^ 0x55), fun _ b => b.map (fun w => w ^^^ 0x55)⟩
    ⟨[], 0⟩ ⟨⟨[0x0badf00d], 4⟩⟩ ⟨[0xdeadbeef], 3⟩ (by decide) (by decide) (by decide)
    (fun b hb => by simpa using hb)
    (fun b hb => by simpa using hb)
    (fun b hb => by
      show (b.map (fun w => w ^^^ 0x55)).map (fun w => w ^^^ 0x55) = b
      rw [List.map_map]
      have hpt : ∀ x ∈ b, ((fun w => w ^^^ 0x55) ∘ fun w => w ^^^ 0x55) x = id x := by
        intro x _
        show x ^^^ 0x55 ^^^ 0x55 = x
        exact Nat.xor_cancel_right _ _
      rw [List.map_congr_left hpt, List.map_id])).2

set_option maxRecDepth 8000 in
/-- C1 counterexample: a 64-word-block cipher whose `decryptBlock` inverts
`encryptBlock` (the identity cipher), on the empty message with the default
CBC/PKCS#7 pipeline: the padding value 256 overflows a byte, `unpad` removes
nothing, and the round trip returns 256 significant bytes instead of 0. -/
theorem C1_counterexample :
    (∀ b : List Nat, b.length = 64 →
      (⟨64, 1, 1, fun _ b => b, fun _ b => b⟩ : BlockCipher).decryptBlock ⟨[], 0⟩
        ((⟨64, 1, 1, fun _ b => b, fun _ b => b⟩ : BlockCipher).encryptBlock ⟨[], 0⟩ b) = b) ∧
    (C_lib_Cipher.decrypt ⟨64, 1, 1, fun _ b => b, fun _ b => b⟩
        (C_lib_Cipher.encrypt ⟨64, 1, 1, fun _ b => b, fun _ b => b⟩
          ⟨[], 0⟩ ⟨[], 0⟩ ⟨⟨[], 0⟩⟩) ⟨[], 0⟩ ⟨⟨[], 0⟩⟩).sigBytes ≠
      (((⟨[], 0⟩ : WordArray)).sigBytes : Int) :=
  ⟨fun _ _ => rfl, by decide⟩

/- ### Reference store: modelling which buffer objects a call mutates -/

/-- A heap of buffer objects; a JS variable holding a WordArray is an index
into it.  `sigBytes` is an `Int` since unvalidated unpadding can drive it
negative. -/
abbrev Store := List WordArrayZ

/-- Dereference a buffer; a dangling reference reads as an empty buffer. -/
def readS (s : Store) (r : Nat) : WordArrayZ := s.getD r ⟨[], 0⟩

/-- Overwrite the object a reference points to (in-place mutation). -/
def writeS (s : Store) (r : Nat) (x : WordArrayZ) : Store := s.set r x

/-- The nonnegative view of a stored buffer (every buffer the engine receives
from a caller has a nonnegative byte count). -/
def WordArrayZ.toN (x : WordArrayZ) : WordArray := ⟨x.words, x.sigBytes.toNat⟩

namespace C_lib_Cipher

/-- `Cipher.encrypt` at the reference level (cipher-core.js lines 38-54): the
message reference is dereferenced, `message.clone()` allocates a fresh object,
and `_doEncrypt` mutates only that fresh object; the result is a reference to
it. -/
def encryptS (C : BlockCipher) (s : Store) (msgRef : Nat) (key : WordArray) (cfg : Cfg) :
    Store × Nat :=
  let m := (readS s msgRef).toN
  let r := s.length
  let s1 := s ++ [m.clone.toZ]
  let s2 := writeS s1 r
    (C_lib_Cipher_Block.doEncrypt C key cfg (readS s1 r).toN).toZ
  (s2, r)

/-- `Cipher.decrypt` at the reference level (cipher-core.js lines 68-84):
clone, then `_doDecrypt` (CBC decrypt + unpad) mutates only the clone. -/
def decryptS (C : BlockCipher) (s : Store) (ctRef : Nat) (key : WordArray) (cfg : Cfg) :
    Store × Nat :=
  let c := (readS s ctRef).toN
  let r := s.length
  let s1 := s ++ [c.clone.toZ]
  let s2 := writeS s1 r
    (C_lib_Cipher_Block.doDecrypt C key cfg (readS s1 r).toN)
  (s2, r)

end C_lib_Cipher

theorem readS_write_append {s : Store} {x y : WordArrayZ} {r : Nat} (h : r < s.length) :
    readS (writeS (s ++ [x]) s.length y) r = readS s r := by
  unfold readS writeS
  rw [List.getD_eq_getElem?_getD, List.getD_eq_getElem?_getD,
    List.getElem?_set_ne (by omega), List.getElem?_append]
  simp [h]

/-- C7: the Cipher Engine never mutates a caller's buffer: after `encrypt` or
`decrypt`, every buffer object that existed before the call — in particular
the input buffer — is unchanged (its words and its significant byte count);
the engine works on a fresh clone. -/
theorem C7_no_input_mutation (C : BlockCipher) (s : Store) (msgRef ctRef : Nat)
    (key : WordArray) (cfg : Cfg) (h1 : msgRef < s.length) (h2 : ctRef < s.length) :
    readS (C_lib_Cipher.encryptS C s msgRef key cfg).1 msgRef = readS s msgRef ∧
    readS (C_lib_Cipher.decryptS C s ctRef key cfg).1 ctRef = readS s ctRef ∧
    (∀ r, r < s.length →
      readS (C_lib_Cipher.encryptS C s msgRef key cfg).1 r = readS s r) ∧
    (∀ r, r < s.length →
      readS (C_lib_Cipher.decryptS C s ctRef key cfg).1 r = readS s r) := by
  refine ⟨readS_write_append h1, readS_write_append h2,
    fun r hr => readS_write_append hr, fun r hr => readS_write_append hr⟩

/-- C7 witness: a concrete two-buffer store; both buffers survive an encrypt
and a decrypt call untouched. -/
theorem C7_no_input_mutation_witness :
    readS (C_lib_Cipher.encryptS ⟨1, 1, 1, fun _ b => b, fun _ b => b⟩
        [⟨[0x11223344], 4⟩, ⟨[0x55667788], 2⟩] 0 ⟨[], 0⟩ ⟨⟨[], 0⟩⟩).1 0 =
      readS [⟨[0x11223344], 4⟩, ⟨[0x55667788], 2⟩] 0 :=
  (C7_no_input_mutation ⟨1, 1, 1, fun _ b => b, fun _ b => b⟩
    [⟨[0x11223344], 4⟩, ⟨[0x55667788], 2⟩] 0 1 ⟨[], 0⟩ ⟨⟨[], 0⟩⟩
    (by decide) (by decide)).1

/- ### Streaming hash accumulator (core.js lines 214-332) -/

/-- The hash primitive contract: `blockSize` (in words), `_doReset`,
`_doHashBlock` (consuming one block of `blockSize` words), and `_doCompute`
(producing the digest from the primitive state, the leftover message and the
total length). -/
structure HashAlgo (σ : Type) where
  blockSize : Nat
  doReset : σ
  doHashBlock : σ → List Nat → σ
  doCompute : σ → WordArray → Nat → WordArray

/-- The accumulator state: `_message` (pending buffer), `_length` (total bytes
fed), and the primitive state. -/
structure HashState (σ : Type) where
  message : WordArray
  length : Nat
  prim : σ

namespace C_lib_Hash

/-- `reset()` (core.js lines 226-237): fresh message, zero length, primitive
reset. -/
def reset {σ : Type} (A : HashAlgo σ) : HashState σ := ⟨⟨[], 0⟩, 0, A.doReset⟩

/-- The block loop of `_hashBlocks` (core.js lines 278-281): calls
`_doHashBlock(offset)` for `offset = 0, blockSize, ...`, `k` times. -/
def hashBlocksGo {σ : Type} (A : HashAlgo σ) (ws : List Nat) : σ → Nat → Nat → σ
  | st, _, 0 => st
  | st, offset, k + 1 =>
      hashBlocksGo A ws (A.doHashBlock st ((ws.drop offset).take A.blockSize))
        (offset + A.blockSize) k

/-- `_hashBlocks` (core.js lines 266-287): process every complete block of
`blockSize` words from the front of the pending message, then splice the
consumed words off the front. -/
def hashBlocks {σ : Type} (A : HashAlgo σ) (s : HashState σ) : HashState σ :=
  let nBlocksReady := s.message.sigBytes / (A.blockSize * 4)
  if nBlocksReady ≠ 0 then
    let nWordsReady := nBlocksReady * A.blockSize
    ⟨⟨s.message.words.drop nWordsReady, s.message.sigBytes - nWordsReady * 4⟩,
     s.length, hashBlocksGo A s.message.words s.prim 0 nBlocksReady⟩
  else s

/-- `update(messageUpdate)` (core.js lines 246-261), buffer input: append to
the pending message, add to the total length, then hash the ready blocks. -/
def update {σ : Type} (A : HashAlgo σ) (s : HashState σ) (data : WordArray) :
    HashState σ :=
  hashBlocks A ⟨s.message.concat data, s.length + data.sigBytes, s.prim⟩

/-- `compute(messageUpdate?)` on an instance (core.js lines 303-325): optional
final update, `_doCompute`, hand out the digest, and hard-reset the
accumulator. -/
def compute {σ : Type} (A : HashAlgo σ) (s : HashState σ) (data : Option WordArray) :
    WordArray × HashState σ :=
  let s1 := match data with
    | some d => update A s d
    | none => s
  (A.doCompute s1.prim s1.message s1.length, reset A)

end C_lib_Hash

/-- Reference fold: process `k` leading blocks of a word list. -/
def foldBlocks {σ : Type} (A : HashAlgo σ) : σ → List Nat → Nat → σ
  | st, _, 0 => st
  | st, rest, k + 1 =>
      foldBlocks A (A.doHashBlock st (rest.take A.blockSize)) (rest.drop A.blockSize) k

theorem hashBlocksGo_spec {σ : Type} (A : HashAlgo σ) :
    ∀ (k : Nat) (pre rest : List Nat) (st : σ), k * A.blockSize ≤ rest.length →
      C_lib_Hash.hashBlocksGo A (pre ++ rest) st pre.length k = foldBlocks A st rest k := by
  intro k
  induction k with
  | zero => intro pre rest st _; rfl
  | succ n ih =>
      intro pre rest st hk
      have hmul : (n + 1) * A.blockSize = n * A.blockSize + A.blockSize := by ring
      have hbs : A.blockSize ≤ rest.length := by omega
      rw [C_lib_Hash.hashBlocksGo, foldBlocks, List.drop_left]
      have hsplit : pre ++ rest = (pre ++ rest.take A.blockSize) ++ rest.drop A.blockSize := by
        rw [List.append_assoc, List.take_append_drop]
      have hofs : pre.length + A.blockSize = (pre ++ rest.take A.blockSize).length := by
        simp only [List.length_append, List.length_take]
        omega
      rw [hofs, hsplit, ih _ _ _ (by rw [List.length_drop]; omega)]

/-- `foldBlocks` only reads the first `k` blocks. -/
theorem foldBlocks_take {σ : Type} (A : HashAlgo σ) :
    ∀ (k : Nat) (Z : List Nat) (st : σ),
      foldBlocks A st (Z.take (k * A.blockSize)) k = foldBlocks A st Z k := by
  intro k
  induction k with
  | zero => intro Z st; rfl
  | succ n ih =>
      intro Z st
      rw [foldBlocks, foldBlocks]
      have h1 : (Z.take ((n + 1) * A.blockSize)).take A.blockSize = Z.take A.blockSize := by
        rw [List.take_take]
        congr 1
        have : A.blockSize ≤ (n + 1) * A.blockSize := by
          calc A.blockSize = 1 * A.blockSize := by ring
          _ ≤ (n + 1) * A.blockSize := Nat.mul_le_mul_right _ (by omega)
        omega
      have h2 : (Z.take ((n + 1) * A.blockSize)).drop A.blockSize =
          (Z.drop A.blockSize).take (n * A.blockSize) := by
        rw [List.drop_take]
        congr 1
        ring_nf
        omega
      rw [h1, h2, ih]

/-- `foldBlocks` splits over an aligned append. -/
theorem foldBlocks_append {σ : Type} (A : HashAlgo σ) :
    ∀ (k1 k2 : Nat) (U V : List Nat) (st : σ), U.length = k1 * A.blockSize →
      foldBlocks A st (U ++ V) (k1 + k2) = foldBlocks A (foldBlocks A st U k1) V k2 := by
  intro k1
  induction k1 with
  | zero =>
      intro k2 U V st hU
      rw [List.length_eq_zero.mp (by omega : U.length = 0)]
      simp [foldBlocks]
  | succ n ih =>
      intro k2 U V st hU
      have hbs : A.blockSize ≤ U.length := by
        rw [hU]
        calc A.blockSize = 1 * A.blockSize := by ring
        _ ≤ (n + 1) * A.blockSize := Nat.mul_le_mul_right _ (by omega)
      rw [show n + 1 + k2 = (n + k2) + 1 by omega, foldBlocks, foldBlocks]
      have h1 : (U ++ V).take A.blockSize = U.take A.blockSize := by
        rw [List.take_append_of_le_length hbs]
      have h2 : (U ++ V).drop A.blockSize = U.drop A.blockSize ++ V := by
        rw [List.drop_append_of_le_length hbs]
      rw [h1, h2, ih _ _ _ _ (by rw [List.length_drop, hU]; ring_nf; omega)]

/-- `_hashBlocks` in closed form (the `nBlocksReady = 0` branch coincides with
dropping 0 words). -/
theorem hashBlocks_eq {σ : Type} (A : HashAlgo σ) (m : WordArray) (len : Nat) (st : σ) :
    C_lib_Hash.hashBlocks A ⟨m, len, st⟩ =
      ⟨⟨m.words.drop (m.sigBytes / (A.blockSize * 4) * A.blockSize),
        m.sigBytes - m.sigBytes / (A.blockSize * 4) * A.blockSize * 4⟩,
       len, C_lib_Hash.hashBlocksGo A m.words st 0 (m.sigBytes / (A.blockSize * 4))⟩ := by
  simp only [C_lib_Hash.hashBlocks]
  rcases eq_or_ne (m.sigBytes / (A.blockSize * 4)) 0 with h | h
  · rw [h]
    simp [C_lib_Hash.hashBlocksGo]
  · rw [if_pos h]

/-- `update` on a canonical accumulator: append the bytes, hash the complete
blocks off the front. -/
theorem update_canon {σ : Type} (A : HashAlgo σ) (hbs : 1 ≤ A.blockSize)
    (Q : List Nat) (hQ : ∀ c ∈ Q, c < 256) (len : Nat) (st : σ) (x : WordArray)
    (hx : x.WF) :
    C_lib_Hash.update A ⟨canonOf Q, len, st⟩ x =
      ⟨canonOf ((Q ++ x.toBytes).drop
          (4 * ((Q ++ x.toBytes).length / (A.blockSize * 4) * A.blockSize))),
       len + x.sigBytes,
       foldBlocks A st (packBytes (Q ++ x.toBytes))
         ((Q ++ x.toBytes).length / (A.blockSize * 4))⟩ := by
  have hWF : (canonOf Q).WF := canonOf_WF hQ
  have hcc : (canonOf Q).concat x = canonOf (Q ++ x.toBytes) := by
    rw [concat_canon _ _ hWF, toBytes_canonOf hQ]
  unfold C_lib_Hash.update
  rw [hcc, hashBlocks_eq]
  set Qx := Q ++ x.toBytes with hQx
  set k := Qx.length / (A.blockSize * 4) with hk
  have hkW : k * (A.blockSize * 4) ≤ Qx.length := Nat.div_mul_le_self _ _
  have hr1 : k * A.blockSize * 4 = 4 * (k * A.blockSize) := by ring
  have hr2 : k * (A.blockSize * 4) = 4 * (k * A.blockSize) := by ring
  have hsig : (canonOf Qx).sigBytes = Qx.length := rfl
  have hwords : (canonOf Qx).words = packBytes Qx := rfl
  rw [hsig, hwords]
  have hm : (⟨(packBytes Qx).drop (k * A.blockSize),
      Qx.length - k * A.blockSize * 4⟩ : WordArray) =
      canonOf (Qx.drop (4 * (k * A.blockSize))) := by
    unfold canonOf
    rw [← packBytes_drop, List.length_drop]
    congr 1
    omega
  rw [hm]
  have hgo : C_lib_Hash.hashBlocksGo A (packBytes Qx) st 0 k =
      foldBlocks A st (packBytes Qx) k := by
    have hlen : k * A.blockSize ≤ (packBytes Qx).length := by
      rw [packBytes_length]
      omega
    have h := hashBlocksGo_spec A k [] (packBytes Qx) st hlen
    simpa using h
  rw [hgo]

/-- Split-invariance of the accumulator, shared helper: updating with `a`
then `b` equals one update with `a ‖ b`, for any state whose pending message
is in canonical packed form. -/
theorem update_split {σ : Type} (A : HashAlgo σ) (s : HashState σ) (a b : WordArray)
    (hbs : 1 ≤ A.blockSize) (hcanon : s.message = canonOf s.message.toBytes)
    (ha : a.WF) (hb : b.WF) :
    C_lib_Hash.update A (C_lib_Hash.update A s a) b =
      C_lib_Hash.update A s (a.concat b) := by
  obtain ⟨msg, len, st⟩ := s
  simp only at hcanon
  set P := msg.toBytes with hPdef
  have hPlt : ∀ c ∈ P, c < 256 := toBytes_allLt msg
  set X := a.toBytes with hXdef
  set Y := b.toBytes with hYdef
  have hXlt : ∀ c ∈ X, c < 256 := toBytes_allLt a
  have hYlt : ∀ c ∈ Y, c < 256 := toBytes_allLt b
  set W := A.blockSize * 4 with hW
  set Q1 := P ++ X with hQ1
  have hQ1lt : ∀ c ∈ Q1, c < 256 := by
    intro c hc
    rcases List.mem_append.mp hc with h | h
    · exact hPlt c h
    · exact hXlt c h
  set k1 := Q1.length / W with hk1
  set R1 := Q1.drop (4 * (k1 * A.blockSize)) with hR1
  have hR1lt : ∀ c ∈ R1, c < 256 := fun c hc => hQ1lt c (List.drop_subset _ _ hc)
  have hkW : k1 * W ≤ Q1.length := Nat.div_mul_le_self _ _
  have hkW' : W * k1 ≤ Q1.length := by rw [Nat.mul_comm]; exact hkW
  have h4k : 4 * (k1 * A.blockSize) = W * k1 := by rw [hW]; ring
  have hR1len : R1.length = Q1.length - W * k1 := by
    rw [hR1, List.length_drop, h4k]
  -- first update
  rw [hcanon]
  rw [update_canon A hbs P hPlt len st a ha]
  rw [← hXdef, ← hQ1, ← hW, ← hk1, ← hR1]
  -- second update
  rw [update_canon A hbs R1 hR1lt (len + a.sigBytes) _ b hb]
  rw [← hYdef, ← hW]
  -- the combined update
  have hcab : a.concat b = canonOf (X ++ Y) := concat_canon a b ha
  have hcabBytes : (a.concat b).toBytes = X ++ Y := by
    rw [hcab]
    exact toBytes_canonOf (by
      intro c hc
      rcases List.mem_append.mp hc with h | h
      · exact hXlt c h
      · exact hYlt c h)
  have hcabSig : (a.concat b).sigBytes = X.length + Y.length := by
    rw [hcab]
    show (X ++ Y).length = _
    simp
  rw [update_canon A hbs P hPlt len st (a.concat b) (by
    rw [hcab]
    exact canonOf_WF (by
      intro c hc
      rcases List.mem_append.mp hc with h | h
      · exact hXlt c h
      · exact hYlt c h))]
  rw [hcabBytes, ← hW]
  -- index bookkeeping
  set k2 := (R1 ++ Y).length / W with hk2
  have hQ3 : P ++ (X ++ Y) = Q1 ++ Y := by rw [hQ1, List.append_assoc]
  rw [hQ3]
  have hk3 : (Q1 ++ Y).length / W = k1 + k2 := by
    have h1 : (Q1 ++ Y).length = W * k1 + (R1.length + Y.length) := by
      simp only [List.length_append]
      omega
    have h2 : (R1 ++ Y).length = R1.length + Y.length := by simp
    rw [h1, Nat.mul_add_div (by omega), hk2, h2]
  rw [hk3]
  have hdrop1 : (Q1 ++ Y).drop (4 * (k1 * A.blockSize)) = R1 ++ Y := by
    rw [h4k, show (W * k1 : Nat) = k1 * W by ring] at hR1 ⊢
    rw [List.drop_append_of_le_length (by omega), ← hR1]
  -- the pending messages agree
  have hmsg : (R1 ++ Y).drop (4 * (k2 * A.blockSize)) =
      (Q1 ++ Y).drop (4 * ((k1 + k2) * A.blockSize)) := by
    have hsum : 4 * ((k1 + k2) * A.blockSize) =
        4 * (k1 * A.blockSize) + 4 * (k2 * A.blockSize) := by ring
    rw [hsum, ← List.drop_drop, hdrop1]
  -- the primitive states agree
  have hprim : foldBlocks A (foldBlocks A st (packBytes Q1) k1) (packBytes (R1 ++ Y)) k2 =
      foldBlocks A st (packBytes (Q1 ++ Y)) (k1 + k2) := by
    set U := (packBytes (Q1 ++ Y)).take (k1 * A.blockSize) with hU
    set V := (packBytes (Q1 ++ Y)).drop (k1 * A.blockSize) with hV
    have hlenQ3 : k1 * A.blockSize ≤ (packBytes (Q1 ++ Y)).length := by
      rw [packBytes_length]
      simp only [List.length_append]
      omega
    have hUlen : U.length = k1 * A.blockSize := by
      rw [hU, List.length_take]
      omega
    have hUV : U ++ V = packBytes (Q1 ++ Y) := by
      rw [hU, hV, List.take_append_drop]
    have htake : (Q1 ++ Y).take (4 * (k1 * A.blockSize)) = Q1.take (4 * (k1 * A.blockSize)) := by
      rw [List.take_append_of_le_length (by omega)]
    have hUeq : U = (packBytes Q1).take (k1 * A.blockSize) := by
      rw [hU, ← packBytes_take, ← packBytes_take, htake]
    have hVeq : V = packBytes (R1 ++ Y) := by
      rw [hV, ← packBytes_drop, hdrop1]
    have hfold1 : foldBlocks A st (packBytes Q1) k1 = foldBlocks A st U k1 := by
      rw [hUeq, foldBlocks_take]
    rw [hfold1, hVeq.symm, ← foldBlocks_append A k1 k2 U V st hUlen, hUV]
  rw [hprim, hmsg, hcabSig]
  have hXlen : a.sigBytes = X.length := (toBytes_length a).symm
  have hYlen : b.sigBytes = Y.length := (toBytes_length b).symm
  congr 1
  omega

/-- C9: the streaming accumulator is split-invariant: for every hash
primitive and buffers `a`, `b`, updating with `a` then `b` leaves exactly the
same accumulator state (pending bytes, total length, and primitive state
after the same processed-block sequence) as one update with the concatenation
`a ‖ b`. -/
theorem C9_update_split {σ : Type} (A : HashAlgo σ) (s : HashState σ) (a b : WordArray)
    (hbs : 1 ≤ A.blockSize) (hcanon : s.message = canonOf s.message.toBytes)
    (ha : a.WF) (hb : b.WF) :
    C_lib_Hash.update A (C_lib_Hash.update A s a) b =
      C_lib_Hash.update A s (a.concat b) :=
  update_split A s a b hbs hcanon ha hb

/-- Witness for C9: a concrete hash primitive (block size 2 words, state
recording the processed-block sequence), a fresh accumulator, and two
concrete buffers; both update orders yield the same accumulator state. -/
theorem C9_update_split_witness :
    C_lib_Hash.update
        (⟨2, ([] : List (List Nat)), fun s b => s ++ [b], fun _ m _ => m⟩ :
          HashAlgo (List (List Nat)))
        (C_lib_Hash.update
          (⟨2, ([] : List (List Nat)), fun s b => s ++ [b], fun _ m _ => m⟩ :
            HashAlgo (List (List Nat)))
          ⟨⟨[], 0⟩, 0, []⟩ ⟨[0x11223344], 3⟩) ⟨[0x55667788], 4⟩ =
      C_lib_Hash.update
        (⟨2, ([] : List (List Nat)), fun s b => s ++ [b], fun _ m _ => m⟩ :
          HashAlgo (List (List Nat)))
        ⟨⟨[], 0⟩, 0, []⟩ (WordArray.concat ⟨[0x11223344], 3⟩ ⟨[0x55667788], 4⟩) :=
  C9_update_split _ ⟨⟨[], 0⟩, 0, []⟩ ⟨[0x11223344], 3⟩ ⟨[0x55667788], 4⟩
    (by decide)
    (by simp [canonOf, WordArray.toBytes, packBytes_nil])
    (by decide) (by decide)

/-! ### HMAC (algo-hmac.js) -/

/-- Membership in a JS-style array write: every element of `setW ws i v` is an
old element, the written value, or a zero filled in by the extension. -/
theorem mem_setW {w : Nat} : ∀ (ws : List Nat) (i v : Nat),
    w ∈ setW ws i v → w ∈ ws ∨ w = v ∨ w = 0 := by
  intro ws
  induction ws with
  | nil =>
      intro i
      induction i with
      | zero =>
          intro v h
          simp only [setW, List.mem_singleton] at h
          exact Or.inr (Or.inl h)
      | succ n ih =>
          intro v h
          rw [setW] at h
          rcases List.mem_cons.mp h with h | h
          · exact Or.inr (Or.inr h)
          · rcases ih v h with h | h | h
            · exact absurd h (List.not_mem_nil w)
            · exact Or.inr (Or.inl h)
            · exact Or.inr (Or.inr h)
  | cons a t iht =>
      intro i
      cases i with
      | zero =>
          intro v h
          rw [setW] at h
          rcases List.mem_cons.mp h with h | h
          · exact Or.inr (Or.inl h)
          · exact Or.inl (List.mem_cons_of_mem a h)
      | succ n =>
          intro v h
          rw [setW] at h
          rcases List.mem_cons.mp h with h | h
          · exact Or.inl (by rw [h]; exact List.mem_cons_self a t)
          · rcases iht n v h with h | h | h
            · exact Or.inl (List.mem_cons_of_mem a h)
            · exact Or.inr (Or.inl h)
            · exact Or.inr (Or.inr h)

namespace C_algo_HMAC

/-- The pad loop of `init` (algo-hmac.js lines 44-47): for `i` in
`0 .. blockSize-1`, `words[i] ^= c` with JS read-as-zero / extend-on-write
array semantics. -/
def xorPadGo (c : Nat) : List Nat → Nat → Nat → List Nat
  | ws, _, 0 => ws
  | ws, i, k + 1 => xorPadGo c (setW ws i (getW ws i ^^^ c)) (i + 1) k

/-- The HMAC instance state: `_oKey`, `_iKey`, and the wrapped hasher. -/
structure HmacState (σ : Type) where
  oKey : WordArray
  iKey : WordArray
  hasher : HashState σ

/-- `init(hasher, key)` (algo-hmac.js lines 17-52), buffer key: create the
hasher; digest the key if it is longer than one hasher block; clone it into
`_oKey`/`_iKey`; xor the first `blockSize` words with `0x5c5c5c5c` /
`0x36363636`; force both `sigBytes` to `blockSize * 4`; then `this.reset()`,
which resets the hasher and feeds it `_iKey`. -/
def init {σ : Type} (A : HashAlgo σ) (key : WordArray) : HmacState σ :=
  let hasher0 := C_lib_Hash.reset A
  let blockSizeBytes := A.blockSize * 4
  let key0 := if blockSizeBytes < key.sigBytes
    then (C_lib_Hash.compute A hasher0 (some key)).1 else key
  let oKey : WordArray := ⟨xorPadGo 0x5c5c5c5c key0.clone.words 0 A.blockSize, blockSizeBytes⟩
  let iKey : WordArray := ⟨xorPadGo 0x36363636 key0.clone.words 0 A.blockSize, blockSizeBytes⟩
  ⟨oKey, iKey, C_lib_Hash.update A (C_lib_Hash.reset A) iKey⟩

/-- `reset()` (algo-hmac.js lines 57-63): reset the hasher, then prime it
with `_iKey`. -/
def reset {σ : Type} (A : HashAlgo σ) (s : HmacState σ) : HmacState σ :=
  ⟨s.oKey, s.iKey, C_lib_Hash.update A (C_lib_Hash.reset A) s.iKey⟩

/-- `update(messageUpdate)` (algo-hmac.js lines 72-77), buffer input:
forward to the wrapped hasher. -/
def update {σ : Type} (A : HashAlgo σ) (s : HmacState σ) (d : WordArray) : HmacState σ :=
  ⟨s.oKey, s.iKey, C_lib_Hash.update A s.hasher d⟩

/-- `compute(messageUpdate?)` (algo-hmac.js lines 86-101): optional final
update; `hasher.compute()` yields the inner digest and leaves the hasher
reset; the outer digest is that reset hasher computed over
`_oKey.clone().concat(innerDigest)`; then `this.reset()`; return the outer
digest. -/
def compute {σ : Type} (A : HashAlgo σ) (s : HmacState σ) (data : Option WordArray) :
    WordArray × HmacState σ :=
  let s1 := match data with
    | some d => update A s d
    | none => s
  let innerR := C_lib_Hash.compute A s1.hasher none
  let outerR := C_lib_Hash.compute A innerR.2 (some (s1.oKey.clone.concat innerR.1))
  (outerR.1, reset A s1)

end C_algo_HMAC

/-- The pad loop keeps every word below `2^32` when the input words and the
pad constant are. -/
theorem xorPadGo_WF (c : Nat) (hc : c < 2 ^ 32) :
    ∀ (k : Nat) (ws : List Nat) (i : Nat), (∀ w ∈ ws, w < 2 ^ 32) →
      ∀ w ∈ C_algo_HMAC.xorPadGo c ws i k, w < 2 ^ 32 := by
  intro k
  induction k with
  | zero =>
      intro ws i h w hw
      rw [C_algo_HMAC.xorPadGo] at hw
      exact h w hw
  | succ n ih =>
      intro ws i h w hw
      rw [C_algo_HMAC.xorPadGo] at hw
      refine ih _ _ ?_ w hw
      intro u hu
      rcases mem_setW _ _ _ hu with h1 | h1 | h1
      · exact h u h1
      · rw [h1]
        refine Nat.xor_lt_two_pow ?_ hc
        by_cases hlen : i < ws.length
        · exact getW_lt hlen h
        · have : getW ws i = 0 := by
            rw [getW_eq, List.getElem?_eq_none (by omega)]
            rfl
          rw [this]
          exact Nat.pos_pow_of_pos 32 (by omega)
      · rw [h1]
        exact Nat.pos_pow_of_pos 32 (by omega)

/-- C8: HMAC `compute` returns the outer digest of `oKey ‖ innerDigest`
computed on a freshly reset hasher, where the inner accumulator is exactly
the one-shot accumulator of `iKey ‖ message` (so the inner digest is the
digest of the `_iKey`-primed hashing of the message); afterwards the
instance is re-primed with `_iKey` — its state equals the state right after
`init` — so running the same update-then-compute sequence a second time
yields the same MAC. -/
theorem C8_hmac_compute {σ : Type} (A : HashAlgo σ) (key m : WordArray)
    (hbs : 1 ≤ A.blockSize) (hkey : key.WF) (hklen : key.sigBytes ≤ A.blockSize * 4)
    (hm : m.WF) :
    (C_algo_HMAC.update A (C_algo_HMAC.init A key) m).hasher
        = C_lib_Hash.update A (C_lib_Hash.reset A)
            (WordArray.concat (C_algo_HMAC.init A key).iKey m)
    ∧ (C_algo_HMAC.compute A (C_algo_HMAC.update A (C_algo_HMAC.init A key) m) none).1
        = (C_lib_Hash.compute A (C_lib_Hash.reset A)
            (some (WordArray.concat
              (WordArray.clone (C_algo_HMAC.init A key).oKey)
              (C_lib_Hash.compute A
                (C_algo_HMAC.update A (C_algo_HMAC.init A key) m).hasher none).1))).1
    ∧ (C_algo_HMAC.compute A (C_algo_HMAC.update A (C_algo_HMAC.init A key) m) none).2
        = C_algo_HMAC.init A key
    ∧ (C_algo_HMAC.compute A
        (C_algo_HMAC.update A
          (C_algo_HMAC.compute A (C_algo_HMAC.update A (C_algo_HMAC.init A key) m) none).2
          m) none).1
      = (C_algo_HMAC.compute A (C_algo_HMAC.update A (C_algo_HMAC.init A key) m) none).1 := by
  have hcanon0 : (C_lib_Hash.reset A).message =
      canonOf (C_lib_Hash.reset A).message.toBytes := by
    show (⟨[], 0⟩ : WordArray) = canonOf (WordArray.toBytes ⟨[], 0⟩)
    simp [canonOf, WordArray.toBytes, packBytes_nil]
  have hiW : (C_algo_HMAC.init A key).iKey.WF := by
    show ∀ w ∈ (C_algo_HMAC.init A key).iKey.words, w < 2 ^ 32
    simp only [C_algo_HMAC.init, WordArray.clone]
    rw [if_neg (by omega)]
    exact fun w hw => xorPadGo_WF 0x36363636 (by omega) A.blockSize key.words 0 hkey w hw
  refine ⟨?_, rfl, rfl, rfl⟩
  exact update_split A (C_lib_Hash.reset A) (C_algo_HMAC.init A key).iKey m hbs hcanon0 hiW hm

/-- A tiny hash primitive used to witness C8: block size one word, primitive
state the list of processed blocks, a constant finaliser. -/
def hmacA : HashAlgo (List (List Nat)) := ⟨1, [], fun s b => s ++ [b], fun _ _ _ => ⟨[], 0⟩⟩

/-- A concrete one-word HMAC key. -/
def hmacKey : WordArray := ⟨[0x00112233], 4⟩

/-- A concrete two-byte HMAC message. -/
def hmacMsg : WordArray := ⟨[0x44556677], 2⟩

/-- Witness for C8 at the concrete primitive, key and message. -/
theorem C8_hmac_compute_witness :
    (C_algo_HMAC.update hmacA (C_algo_HMAC.init hmacA hmacKey) hmacMsg).hasher
        = C_lib_Hash.update hmacA (C_lib_Hash.reset hmacA)
            (WordArray.concat (C_algo_HMAC.init hmacA hmacKey).iKey hmacMsg)
    ∧ (C_algo_HMAC.compute hmacA
          (C_algo_HMAC.update hmacA (C_algo_HMAC.init hmacA hmacKey) hmacMsg) none).1
        = (C_lib_Hash.compute hmacA (C_lib_Hash.reset hmacA)
            (some (WordArray.concat
              (WordArray.clone (C_algo_HMAC.init hmacA hmacKey).oKey)
              (C_lib_Hash.compute hmacA
                (C_algo_HMAC.update hmacA (C_algo_HMAC.init hmacA hmacKey) hmacMsg).hasher
                none).1))).1
    ∧ (C_algo_HMAC.compute hmacA
          (C_algo_HMAC.update hmacA (C_algo_HMAC.init hmacA hmacKey) hmacMsg) none).2
        = C_algo_HMAC.init hmacA hmacKey
    ∧ (C_algo_HMAC.compute hmacA
        (C_algo_HMAC.update hmacA
          (C_algo_HMAC.compute hmacA
            (C_algo_HMAC.update hmacA (C_algo_HMAC.init hmacA hmacKey) hmacMsg) none).2
          hmacMsg) none).1
      = (C_algo_HMAC.compute hmacA
          (C_algo_HMAC.update hmacA (C_algo_HMAC.init hmacA hmacKey) hmacMsg) none).1 :=
  C8_hmac_compute hmacA hmacKey hmacMsg (by decide) (by decide) (by decide) (by decide)

/-! ### CipherParams, the OpenSSL format and password-based encryption
(cipher-core.js) -/

/-- Packing four leading bytes peels one packed word. -/
theorem packBytes_cons4 (a b c d : Nat) (rest : List Nat) :
    packBytes (a :: b :: c :: d :: rest) = packWord a b c d :: packBytes rest := by
  have h := packBytes_append (A := [a, b, c, d]) rest (by simp)
  simpa [packBytes_four] using h

/-- The formatting strategies of cipher-core.js (OpenSSL is the only one). -/
inductive FormatTag where
  | openSSL
deriving DecidableEq, Repr

/-- `C_lib_CipherParams` (cipher-core.js lines 382-404): a bag of optional
cipher parameters; absence of `salt` means unsalted. -/
structure CipherParams where
  rawCiphertext : Option WordArrayZ
  key : Option WordArray
  iv : Option WordArray
  salt : Option WordArray
  formatter : Option FormatTag
deriving DecidableEq, Repr

namespace C_format_OpenSSL

/-- `C_format_OpenSSL.toString(params)` (cipher-core.js lines 286-299),
parameterized by the Base64 encoder `enc` (enc-base64.js is not part of this
tree): salted output encodes `"Salted__" ‖ salt ‖ rawCiphertext`, unsalted
output encodes the raw ciphertext alone; `none` models the TypeError the JS
throws when `params.rawCiphertext` is absent. -/
def toString (enc : WordArray → List Nat) (params : CipherParams) :
    Option (List Nat) :=
  match params.rawCiphertext with
  | none => none
  | some rawZ =>
      let rawCiphertext : WordArray := ⟨rawZ.words, rawZ.sigBytes.toNat⟩
      match params.salt with
      | some salt =>
          some (enc (((WordArray.create [0x53616c74, 0x65645f5f] none).concat salt).concat
            rawCiphertext))
      | none => some (enc rawCiphertext)

/-- `C_format_OpenSSL.fromString(openSSLStr)` (cipher-core.js lines 310-327),
parameterized by the Base64 decoder `dec`: decode, test words 0 and 1
against the magic constants (a JS out-of-range read gives `undefined`, which
compares unequal to both, as `getW`'s 0 does), and if they match take words
2-3 as the salt, splice off the first four words and subtract 16 from
`sigBytes` (a JS number, so the result may be negative: `Int`). -/
def fromString (dec : List Nat → WordArray) (s : List Nat) : CipherParams :=
  let rawCiphertext := dec s
  let ws := rawCiphertext.words
  if getW ws 0 = 0x53616c74 ∧ getW ws 1 = 0x65645f5f then
    let salt := WordArray.create ((ws.drop 2).take 2) none
    ⟨some ⟨ws.drop 4, (rawCiphertext.sigBytes : Int) - 16⟩, none, none, some salt, none⟩
  else
    ⟨some rawCiphertext.toZ, none, none, none, none⟩

end C_format_OpenSSL

namespace C_algo_PBE

/-- `C_algo_PBE.encrypt` (cipher-core.js lines 437-451), parameterized by the
configured KDF strategy (`cfg.kdf.execute(cipher, password)`, called without
a salt argument). The body derives the key, encrypts the message with the
derived key and IV, and assembles the params object field by field — but the
final statement is `return ciphertextParams;`, an identifier declared
nowhere in the file, so in place of the assembled object every call raises a
ReferenceError. The unreachable `key`/`iv`-absent branch models the
TypeError the JS would hit using `undefined` as a key. -/
def encrypt (C : BlockCipher) (kdfExec : WordArray → CipherParams)
    (message password : WordArray) : Except String CipherParams :=
  let params := kdfExec password
  match params.key, params.iv with
  | some key, some iv =>
      let rawCiphertext := C_lib_Cipher.encrypt C message key ⟨iv⟩
      let _assembled : CipherParams :=
        ⟨some rawCiphertext.toZ, params.key, params.iv, params.salt,
          some FormatTag.openSSL⟩
      Except.error "ReferenceError: ciphertextParams is not defined"
  | _, _ => Except.error "TypeError: key or iv is undefined"

end C_algo_PBE

/-- C2: the claim says PBE `encrypt` returns the `CipherParams` assembled
inside the call; in the code the final `return ciphertextParams;` names an
undeclared identifier, so for every cipher, KDF strategy, message and
password the call never returns a params object, and whenever the KDF
produced a key and IV it ends in exactly the ReferenceError. -/
theorem C2_pbe_encrypt_never_returns (C : BlockCipher)
    (kdfExec : WordArray → CipherParams) (message password : WordArray) :
    (∀ p : CipherParams,
        C_algo_PBE.encrypt C kdfExec message password ≠ Except.ok p)
    ∧ ((kdfExec password).key.isSome → (kdfExec password).iv.isSome →
        C_algo_PBE.encrypt C kdfExec message password =
          Except.error "ReferenceError: ciphertextParams is not defined") := by
  constructor
  · intro p h
    simp only [C_algo_PBE.encrypt] at h
    revert h
    split <;> simp
  · intro hk hi
    obtain ⟨k, hkk⟩ := Option.isSome_iff_exists.mp hk
    obtain ⟨i, hii⟩ := Option.isSome_iff_exists.mp hi
    simp only [C_algo_PBE.encrypt]
    rw [hkk, hii]

/-- A fixed KDF result used to witness C2. -/
def pbeKdfW : WordArray → CipherParams :=
  fun _ => ⟨none, some ⟨[0x01020304], 4⟩, some ⟨[0x0a0b0c0d], 4⟩, none, none⟩

/-- Witness for C2: a concrete cipher, KDF result, message and password; the
call raises the ReferenceError. -/
theorem C2_pbe_encrypt_never_returns_witness :
    C_algo_PBE.encrypt ⟨1, 1, 1, fun _ b => b, fun _ b => b⟩ pbeKdfW
        ⟨[0xdeadbeef], 4⟩ ⟨[0x70617373], 4⟩ =
      Except.error "ReferenceError: ciphertextParams is not defined" :=
  (C2_pbe_encrypt_never_returns ⟨1, 1, 1, fun _ b => b, fun _ b => b⟩ pbeKdfW
    ⟨[0xdeadbeef], 4⟩ ⟨[0x70617373], 4⟩).2 (by decide) (by decide)

/-- The magic prefix `WordArray.create([0x53616c74, 0x65645f5f])` holds the
ASCII bytes of `"Salted__"`. -/
theorem magic_toBytes :
    (WordArray.create [0x53616c74, 0x65645f5f] none).toBytes
      = [0x53, 0x61, 0x6c, 0x74, 0x65, 0x64, 0x5f, 0x5f] := by decide

/-- `fromString` on a decoder returning a canonical buffer, spelled out on
the packed byte sequence. -/
theorem fromString_canon (dec : List Nat → WordArray) (s : List Nat)
    (B : List Nat) (hdec : dec s = canonOf B) :
    C_format_OpenSSL.fromString dec s =
      if getW (packBytes B) 0 = 0x53616c74 ∧ getW (packBytes B) 1 = 0x65645f5f then
        ⟨some ⟨(packBytes B).drop 4, (B.length : Int) - 16⟩, none, none,
          some (WordArray.create (((packBytes B).drop 2).take 2) none), none⟩
      else ⟨some (canonOf B).toZ, none, none, none, none⟩ := by
  simp only [C_format_OpenSSL.fromString]
  rw [hdec]
  rfl

/-- C3: OpenSSL-format round trip, for any Base64 codec pair whose
decode-of-encode returns the canonical packing of a buffer's bytes. Salted:
when the salt is exactly 8 bytes, `fromString(toString(params))` restores
the raw ciphertext and the salt (as canonically packed buffers with the same
byte sequences and significant-byte counts). Unsalted: absence of salt is
preserved only when the raw ciphertext's packed words do not begin with the
magic pair `0x53616c74, 0x65645f5f` (ASCII `"Salted__"`); the counterexample
shows the magic-prefixed case is misparsed as salted. -/
theorem C3_openssl_format_roundtrip (enc : WordArray → List Nat)
    (dec : List Nat → WordArray)
    (hrt : ∀ wa : WordArray, wa.WF → dec (enc wa) = canonOf wa.toBytes)
    (raw salt : WordArray) (hraw : raw.WF) (hsalt : salt.WF)
    (hsaltLen : salt.sigBytes = 8) :
    (∀ s, C_format_OpenSSL.toString enc
        ⟨some raw.toZ, none, none, some salt, none⟩ = some s →
      C_format_OpenSSL.fromString dec s =
          ⟨some (canonOf raw.toBytes).toZ, none, none,
            some (canonOf salt.toBytes), none⟩
        ∧ (canonOf raw.toBytes).toBytes = raw.toBytes
        ∧ (canonOf raw.toBytes).sigBytes = raw.sigBytes
        ∧ (canonOf salt.toBytes).toBytes = salt.toBytes
        ∧ (canonOf salt.toBytes).sigBytes = salt.sigBytes)
    ∧ (¬ (getW (packBytes raw.toBytes) 0 = 0x53616c74
          ∧ getW (packBytes raw.toBytes) 1 = 0x65645f5f) →
      ∀ s, C_format_OpenSSL.toString enc
          ⟨some raw.toZ, none, none, none, none⟩ = some s →
        C_format_OpenSSL.fromString dec s =
            ⟨some (canonOf raw.toBytes).toZ, none, none, none, none⟩
          ∧ (canonOf raw.toBytes).toBytes = raw.toBytes
          ∧ (canonOf raw.toBytes).sigBytes = raw.sigBytes) := by
  have hrawlt := toBytes_allLt raw
  have hsaltlt := toBytes_allLt salt
  have hsaltBlen : salt.toBytes.length = 8 := by rw [toBytes_length, hsaltLen]
  have heta : (⟨raw.words, raw.sigBytes⟩ : WordArray) = raw := rfl
  constructor
  · intro s hs
    simp only [C_format_OpenSSL.toString, WordArray.toZ, Int.toNat_natCast] at hs
    rw [heta] at hs
    obtain rfl : s = enc (((WordArray.create [0x53616c74, 0x65645f5f] none).concat
        salt).concat raw) := (Option.some.inj hs).symm
    have h1 : (WordArray.create [0x53616c74, 0x65645f5f] none).concat salt
        = canonOf ([0x53, 0x61, 0x6c, 0x74, 0x65, 0x64, 0x5f, 0x5f] ++ salt.toBytes) := by
      rw [concat_canon _ _ (by decide), magic_toBytes]
    have hMSlt : ∀ b ∈ ([0x53, 0x61, 0x6c, 0x74, 0x65, 0x64, 0x5f, 0x5f]
        ++ salt.toBytes), b < 256 := by
      intro b hb
      rcases List.mem_append.mp hb with h | h
      · exact (by decide :
          ∀ x ∈ [(0x53 : Nat), 0x61, 0x6c, 0x74, 0x65, 0x64, 0x5f, 0x5f], x < 256) b h
      · exact hsaltlt b h
    have h2 : ((WordArray.create [0x53616c74, 0x65645f5f] none).concat salt).concat raw
        = canonOf ([0x53, 0x61, 0x6c, 0x74, 0x65, 0x64, 0x5f, 0x5f]
            ++ (salt.toBytes ++ raw.toBytes)) := by
      rw [h1, concat_canon _ _ (canonOf_WF hMSlt), toBytes_canonOf hMSlt,
        List.append_assoc]
    set B := [(0x53 : Nat), 0x61, 0x6c, 0x74, 0x65, 0x64, 0x5f, 0x5f]
        ++ (salt.toBytes ++ raw.toBytes) with hB
    have hBlt : ∀ b ∈ B, b < 256 := by
      rw [hB, ← List.append_assoc]
      intro b hb
      rcases List.mem_append.mp hb with h | h
      · exact hMSlt b h
      · exact hrawlt b h
    have hdec : dec (enc (((WordArray.create [0x53616c74, 0x65645f5f] none).concat
        salt).concat raw)) = canonOf B := by
      rw [h2, hrt _ (canonOf_WF hBlt), toBytes_canonOf hBlt]
    rw [fromString_canon dec _ B hdec]
    have e0 : getW (packBytes B) 0 = 0x53616c74 := by
      rw [getW_packBytes, hB, getD_append_left (by decide), getD_append_left (by decide),
        getD_append_left (by decide), getD_append_left (by decide)]
      decide
    have e1 : getW (packBytes B) 1 = 0x65645f5f := by
      rw [getW_packBytes, hB, getD_append_left (by decide), getD_append_left (by decide),
        getD_append_left (by decide), getD_append_left (by decide)]
      decide
    rw [if_pos ⟨e0, e1⟩]
    have hdrop2 : (packBytes B).drop 2 = packBytes (salt.toBytes ++ raw.toBytes) := by
      rw [← packBytes_drop]
      congr 1
    have htake2 : (packBytes (salt.toBytes ++ raw.toBytes)).take 2
        = packBytes salt.toBytes := by
      rw [← packBytes_take]
      congr 1
      exact List.take_left' (by omega)
    have hsalt' : WordArray.create (((packBytes B).drop 2).take 2) none
        = canonOf salt.toBytes := by
      rw [hdrop2, htake2]
      show (⟨packBytes salt.toBytes, (packBytes salt.toBytes).length * 4⟩ : WordArray)
        = ⟨packBytes salt.toBytes, salt.toBytes.length⟩
      congr 1
      rw [packBytes_length, hsaltBlen]
    have hdrop4 : (packBytes B).drop 4 = packBytes raw.toBytes := by
      rw [← packBytes_drop]
      congr 1
      rw [hB, ← List.append_assoc]
      exact List.drop_left' (by simp [hsaltBlen])
    have hlenB : B.length = 16 + raw.toBytes.length := by
      rw [hB]
      simp only [List.length_append, List.length_cons, List.length_nil, hsaltBlen]
      omega
    have hsig : ((B.length : Int)) - 16 = ((raw.toBytes.length : Int)) := by
      rw [hlenB]
      push_cast
      ring
    refine ⟨?_, toBytes_canonOf hrawlt, toBytes_length raw,
      toBytes_canonOf hsaltlt, toBytes_length salt⟩
    rw [hdrop4, hsalt', hsig]
    rfl
  · intro hmagic s hs
    simp only [C_format_OpenSSL.toString, WordArray.toZ, Int.toNat_natCast] at hs
    rw [heta] at hs
    obtain rfl : s = enc raw := (Option.some.inj hs).symm
    rw [fromString_canon dec _ raw.toBytes (hrt raw hraw)]
    rw [if_neg hmagic]
    exact ⟨rfl, toBytes_canonOf hrawlt, toBytes_length raw⟩

/-- Witness for C3: the canonical codec pair (`toBytes` as encoder, `canonOf`
as decoder, which satisfy the round-trip hypothesis definitionally), a
one-word raw ciphertext and an 8-byte salt. -/
theorem C3_openssl_format_roundtrip_witness :
    (∀ s, C_format_OpenSSL.toString WordArray.toBytes
        ⟨some (WordArray.toZ ⟨[0x01020304], 4⟩), none, none,
          some ⟨[0x11223344, 0x55667788], 8⟩, none⟩ = some s →
      C_format_OpenSSL.fromString canonOf s =
          ⟨some (canonOf (WordArray.toBytes ⟨[0x01020304], 4⟩)).toZ, none, none,
            some (canonOf (WordArray.toBytes ⟨[0x11223344, 0x55667788], 8⟩)), none⟩
        ∧ (canonOf (WordArray.toBytes ⟨[0x01020304], 4⟩)).toBytes
            = WordArray.toBytes ⟨[0x01020304], 4⟩
        ∧ (canonOf (WordArray.toBytes ⟨[0x01020304], 4⟩)).sigBytes
            = (⟨[0x01020304], 4⟩ : WordArray).sigBytes
        ∧ (canonOf (WordArray.toBytes ⟨[0x11223344, 0x55667788], 8⟩)).toBytes
            = WordArray.toBytes ⟨[0x11223344, 0x55667788], 8⟩
        ∧ (canonOf (WordArray.toBytes ⟨[0x11223344, 0x55667788], 8⟩)).sigBytes
            = (⟨[0x11223344, 0x55667788], 8⟩ : WordArray).sigBytes)
    ∧ (¬ (getW (packBytes (WordArray.toBytes ⟨[0x01020304], 4⟩)) 0 = 0x53616c74
          ∧ getW (packBytes (WordArray.toBytes ⟨[0x01020304], 4⟩)) 1 = 0x65645f5f) →
      ∀ s, C_format_OpenSSL.toString WordArray.toBytes
          ⟨some (WordArray.toZ ⟨[0x01020304], 4⟩), none, none, none, none⟩ = some s →
        C_format_OpenSSL.fromString canonOf s =
            ⟨some (canonOf (WordArray.toBytes ⟨[0x01020304], 4⟩)).toZ,
              none, none, none, none⟩
          ∧ (canonOf (WordArray.toBytes ⟨[0x01020304], 4⟩)).toBytes
              = WordArray.toBytes ⟨[0x01020304], 4⟩
          ∧ (canonOf (WordArray.toBytes ⟨[0x01020304], 4⟩)).sigBytes
              = (⟨[0x01020304], 4⟩ : WordArray).sigBytes) :=
  C3_openssl_format_roundtrip WordArray.toBytes canonOf (fun _ _ => rfl)
    ⟨[0x01020304], 4⟩ ⟨[0x11223344, 0x55667788], 8⟩ (by decide) (by decide) rfl

/-- Counterexample for C3: an unsalted params object whose raw ciphertext
happens to start with the ASCII bytes of `"Salted__"`; the round trip through
the OpenSSL format (with the canonical codec pair) misparses it as salted and
returns a params object WITH a salt, so absence of salt is not preserved. -/
theorem C3_counterexample :
    (C_format_OpenSSL.fromString canonOf
        ((C_format_OpenSSL.toString WordArray.toBytes
          ⟨some (WordArray.toZ ⟨[0x53616c74, 0x65645f5f, 0xaabbccdd, 0x00112233], 16⟩),
            none, none, none, none⟩).getD [])).salt ≠ none := by
  have h1 : (C_format_OpenSSL.toString WordArray.toBytes
      ⟨some (WordArray.toZ ⟨[0x53616c74, 0x65645f5f, 0xaabbccdd, 0x00112233], 16⟩),
        none, none, none, none⟩).getD []
      = [0x53, 0x61, 0x6c, 0x74, 0x65, 0x64, 0x5f, 0x5f,
         0xaa, 0xbb, 0xcc, 0xdd, 0x00, 0x11, 0x22, 0x33] := by decide
  rw [h1]
  rw [fromString_canon canonOf _ _ rfl]
  have e0 : getW (packBytes [(0x53 : Nat), 0x61, 0x6c, 0x74, 0x65, 0x64, 0x5f, 0x5f,
      0xaa, 0xbb, 0xcc, 0xdd, 0x00, 0x11, 0x22, 0x33]) 0 = 0x53616c74 := by
    rw [getW_packBytes]; decide
  have e1 : getW (packBytes [(0x53 : Nat), 0x61, 0x6c, 0x74, 0x65, 0x64, 0x5f, 0x5f,
      0xaa, 0xbb, 0xcc, 0xdd, 0x00, 0x11, 0x22, 0x33]) 1 = 0x65645f5f := by
    rw [getW_packBytes]; decide
  rw [if_pos ⟨e0, e1⟩]
  simp

/-! ### OpenSSL KDF and password-based decryption (cipher-core.js) -/

/-- `WordArray.random(nBytes)` (core.js lines 195-206), with the randomness
source made explicit: the JS loop pushes one random word per 4 requested
bytes; here those words are drawn from the head of `rng`. -/
def WordArray.random (rng : List Nat) (nBytes : Nat) : WordArray :=
  WordArray.create (rng.take ((nBytes + 3) / 4)) (some nBytes)

/-- Modelled from the spec: EVP-style `derive(password, salt, totalWords)`
"repeatedly hashes previousDigest ‖ password ‖ salt (empty previousDigest for
the first round) with a configurable digest primitive, concatenating
successive digest blocks until totalWords words are produced, then truncates
to exactly totalWords" (algo-evpkdf.js is not part of this tree; `H` is the
digest primitive). One round per needed word is fuel enough. -/
def EvpKDF_go (H : WordArray → WordArray) (password salt : WordArray) :
    Nat → WordArray → List Nat → List Nat
  | 0, _, acc => acc
  | fuel + 1, prev, acc =>
      let block := H ((prev.concat password).concat salt)
      EvpKDF_go H password salt fuel block (acc ++ block.words)

/-- Modelled from the spec: the derived key material, truncated to
`keySize` words with `keySize * 4` significant bytes. -/
def EvpKDF_compute (H : WordArray → WordArray) (password salt : WordArray)
    (keySize : Nat) : WordArray :=
  ⟨(EvpKDF_go H password salt keySize ⟨[], 0⟩ []).take keySize, keySize * 4⟩

namespace C_kdf_OpenSSL

/-- `C_kdf_OpenSSL.execute(cipher, password, salt)` (cipher-core.js lines
351-369): when no salt is passed, draw a fresh 8-byte salt from the
randomness source; derive `keySize + ivSize` words; the IV is the tail
`key.words.slice(keySize)`, the key keeps `keySize * 4` significant bytes;
return `CipherParams.create({key, iv, salt})`. -/
def execute (H : WordArray → WordArray) (rng : List Nat)
    (keySize ivSize : Nat) (password : WordArray) (salt : Option WordArray) :
    CipherParams :=
  let saltW := match salt with
    | none => WordArray.random rng 8
    | some sa => sa
  let key := EvpKDF_compute H password saltW (keySize + ivSize)
  let iv := WordArray.create (key.words.drop keySize) none
  ⟨none, some ⟨key.words, keySize * 4⟩, some iv, some saltW, none⟩

end C_kdf_OpenSSL

namespace C_algo_PBE

/-- `C_algo_PBE.decrypt` (cipher-core.js lines 464-480), params-object input,
default OpenSSL KDF: re-derive key and IV passing `ciphertext.salt` to the
KDF (`undefined` when the params object is unsalted, which makes the KDF
draw a fresh random salt), then run the cipher. `none` models the TypeError
the JS throws when `rawCiphertext` is absent; the KDF always produces a key
and an IV. -/
def decrypt (C : BlockCipher) (H : WordArray → WordArray) (rng : List Nat)
    (ciphertext : CipherParams) (password : WordArray) : Option WordArrayZ :=
  let params := C_kdf_OpenSSL.execute H rng C.keySize C.ivSize password
    ciphertext.salt
  match ciphertext.rawCiphertext, params.key, params.iv with
  | some rawZ, some key, some iv =>
      some (C_lib_Cipher.decrypt C ⟨rawZ.words, rawZ.sigBytes.toNat⟩ key ⟨iv⟩)
  | _, _, _ => none

end C_algo_PBE

/-- C4: the claim says PBE decryption of an UNSALTED ciphertext is
deterministic across runs; in the code an absent salt makes
`C_kdf_OpenSSL.execute` call `WordArray.random(8)`, so each run derives key
and IV from fresh randomness. What does hold (amended): whenever the
ciphertext carries a salt, the KDF result and the plaintext are independent
of the randomness source, so two runs agree. -/
theorem C4_pbe_decrypt_salted_deterministic (C : BlockCipher)
    (H : WordArray → WordArray) (rng1 rng2 : List Nat) (ct : CipherParams)
    (password : WordArray) (salt : WordArray) (hsalt : ct.salt = some salt) :
    C_kdf_OpenSSL.execute H rng1 C.keySize C.ivSize password ct.salt
        = C_kdf_OpenSSL.execute H rng2 C.keySize C.ivSize password ct.salt
    ∧ C_algo_PBE.decrypt C H rng1 ct password
        = C_algo_PBE.decrypt C H rng2 ct password := by
  constructor
  · simp only [C_kdf_OpenSSL.execute, hsalt]
  · simp only [C_algo_PBE.decrypt, C_kdf_OpenSSL.execute, hsalt]

/-- Witness for C4 at a concrete cipher, digest, salted ciphertext, password
and two different randomness sources. -/
theorem C4_pbe_decrypt_salted_deterministic_witness :
    C_kdf_OpenSSL.execute (fun wa => ⟨[getW wa.words 0], 4⟩) [1, 9] 1 1 ⟨[], 0⟩
        (CipherParams.salt ⟨some (WordArray.toZ ⟨[0], 4⟩), none, none,
          some ⟨[7, 7], 8⟩, none⟩)
      = C_kdf_OpenSSL.execute (fun wa => ⟨[getW wa.words 0], 4⟩) [2, 9] 1 1 ⟨[], 0⟩
        (CipherParams.salt ⟨some (WordArray.toZ ⟨[0], 4⟩), none, none,
          some ⟨[7, 7], 8⟩, none⟩)
    ∧ C_algo_PBE.decrypt ⟨1, 1, 1, fun _ b => b, fun _ b => b⟩
        (fun wa => ⟨[getW wa.words 0], 4⟩) [1, 9]
        ⟨some (WordArray.toZ ⟨[0], 4⟩), none, none, some ⟨[7, 7], 8⟩, none⟩ ⟨[], 0⟩
      = C_algo_PBE.decrypt ⟨1, 1, 1, fun _ b => b, fun _ b => b⟩
        (fun wa => ⟨[getW wa.words 0], 4⟩) [2, 9]
        ⟨some (WordArray.toZ ⟨[0], 4⟩), none, none, some ⟨[7, 7], 8⟩, none⟩ ⟨[], 0⟩ :=
  C4_pbe_decrypt_salted_deterministic ⟨1, 1, 1, fun _ b => b, fun _ b => b⟩
    (fun wa => ⟨[getW wa.words 0], 4⟩) [1, 9] [2, 9]
    ⟨some (WordArray.toZ ⟨[0], 4⟩), none, none, some ⟨[7, 7], 8⟩, none⟩
    ⟨[], 0⟩ ⟨[7, 7], 8⟩ rfl

/-- Counterexample for C4: same cipher, same UNSALTED ciphertext, same
password — two runs whose randomness sources differ derive different keys
and IVs and return different plaintexts. -/
theorem C4_counterexample :
    C_algo_PBE.decrypt ⟨1, 1, 1, fun _ b => b, fun _ b => b⟩
        (fun wa => ⟨[getW wa.words 0], 4⟩) [1, 9]
        ⟨some (WordArray.toZ ⟨[0], 4⟩), none, none, none, none⟩ ⟨[], 0⟩
      ≠ C_algo_PBE.decrypt ⟨1, 1, 1, fun _ b => b, fun _ b => b⟩
        (fun wa => ⟨[getW wa.words 0], 4⟩) [2, 9]
        ⟨some (WordArray.toZ ⟨[0], 4⟩), none, none, none, none⟩ ⟨[], 0⟩ := by decide

/-! ### The Hex encoder and the default string decoding of `Cipher.decrypt`
(core.js, cipher-core.js) -/

/-- One hex digit char code (`0-9`, `a-f`, `A-F`), as `parseInt(.., 16)`
accepts. -/
def hexDigit (c : Nat) : Option Nat :=
  if 48 ≤ c ∧ c ≤ 57 then some (c - 48)
  else if 97 ≤ c ∧ c ≤ 102 then some (c - 87)
  else if 65 ≤ c ∧ c ≤ 70 then some (c - 55)
  else none

/-- `parseInt(s, 16)` on the at-most-two-character substring the Hex decoder
feeds it: the longest valid prefix, `none` for NaN (no leading digit). -/
def parseIntPrefix16 : List Nat → Option Nat
  | [] => none
  | c :: rest =>
      match hexDigit c with
      | none => none
      | some d =>
          match rest with
          | [] => some d
          | c2 :: _ =>
              match hexDigit c2 with
              | none => some d
              | some d2 => some (16 * d + d2)

namespace C_enc_Hex

/-- The loop of `C_enc_Hex.fromString` (core.js lines 380-385): for even `i`,
`words[i >>> 3] |= parseInt(hexStr.substr(i, 2), 16) << (24 - (i % 8) * 4)`;
a NaN from `parseInt` contributes 0, exactly as the `none` branch does. -/
def fromStringGo (cs : List Nat) : List Nat → Nat → Nat → List Nat
  | words, _, 0 => words
  | words, i, fuel + 1 =>
      let contrib := match parseIntPrefix16 ((cs.drop i).take 2) with
        | none => 0
        | some v => v <<< (24 - i % 8 * 4)
      fromStringGo cs (setW words (i / 8) (getW words (i / 8) ||| contrib)) (i + 2) fuel

/-- `C_enc_Hex.fromString(hexStr)` (core.js lines 377-387), chars as codes:
one loop step per character pair, then `create(words, hexStrLength / 2)`
(integer division here; JS would produce a fractional byte count on an
odd-length string, which no encoder emits). -/
def fromString (cs : List Nat) : WordArray :=
  WordArray.create (fromStringGo cs [] 0 ((cs.length + 1) / 2)) (some (cs.length / 2))

end C_enc_Hex

/-- Modelled from the spec: the character at a standard Base64 alphabet
index (`A-Z`, `a-z`, `0-9`, `+`, `/`), as a char code. -/
def base64Char (n : Nat) : Nat :=
  if n < 26 then 65 + n
  else if n < 52 then 97 + (n - 26)
  else if n < 62 then 48 + (n - 52)
  else if n = 62 then 43
  else 47

/-- Modelled from the spec: standard Base64 of a byte sequence, three bytes
to four characters, `=` (code 61) padding. -/
def base64Go : List Nat → List Nat
  | [] => []
  | [b0] => [base64Char (b0 / 4), base64Char (b0 % 4 * 16), 61, 61]
  | [b0, b1] =>
      [base64Char (b0 / 4), base64Char (b0 % 4 * 16 + b1 / 16),
       base64Char (b1 % 16 * 4), 61]
  | b0 :: b1 :: b2 :: rest =>
      base64Char (b0 / 4) :: base64Char (b0 % 4 * 16 + b1 / 16) ::
        base64Char (b1 % 16 * 4 + b2 / 64) :: base64Char (b2 % 64) :: base64Go rest

/-- Modelled from the spec: `wordArray.toString(C_enc_Base64)`, the "Base64
text encoding" of the buffer's significant bytes (enc-base64.js is not part
of this tree). -/
def C_enc_Base64_toString (wa : WordArray) : List Nat := base64Go wa.toBytes

/-- `Cipher.decrypt` on a STRING input (cipher-core.js lines 68-84): the
string branch runs `C_lib_WordArray.encoder.fromString(ciphertext)`, and the
default encoder is `C_enc_Hex` (core.js line 474), then `_doDecrypt`. -/
def C_lib_Cipher.decryptStr (C : BlockCipher) (s : List Nat) (key : WordArray)
    (cfg : Cfg) : WordArrayZ :=
  C_lib_Cipher_Block.doDecrypt C key cfg (C_enc_Hex.fromString s)

/-- C10: a ciphertext STRING handed to `Cipher.decrypt` is decoded with the
WordArray default encoder, which is Hex, not Base64 — for every cipher,
string, key and config the result is the decryption of the hex
interpretation of the string. Concretely, the Base64 text the OpenSSL
formatter produces for the one-word raw ciphertext `[0x00000000]` is
`"AAAAAA=="`, whose hex interpretation is the buffer `[0xaaaaaa00]`, not the
raw ciphertext — so decrypting that text directly differs from decrypting
the raw ciphertext even for the identity cipher, and the text must first go
through the format's `fromString`. -/
theorem C10_decrypt_string_uses_hex :
    (∀ (C : BlockCipher) (s : List Nat) (key : WordArray) (cfg : Cfg),
      C_lib_Cipher.decryptStr C s key cfg =
        C_lib_Cipher.decrypt C (C_enc_Hex.fromString s) key cfg)
    ∧ C_enc_Base64_toString ⟨[0x00000000], 4⟩
        = [65, 65, 65, 65, 65, 65, 61, 61]
    ∧ C_enc_Hex.fromString (C_enc_Base64_toString ⟨[0x00000000], 4⟩)
        = ⟨[0xaaaaaa00], 4⟩
    ∧ C_lib_Cipher.decryptStr ⟨1, 1, 1, fun _ b => b, fun _ b => b⟩
          (C_enc_Base64_toString ⟨[0x00000000], 4⟩) ⟨[0], 4⟩ ⟨⟨[0], 4⟩⟩
        ≠ C_lib_Cipher.decrypt ⟨1, 1, 1, fun _ b => b, fun _ b => b⟩
          ⟨[0x00000000], 4⟩ ⟨[0], 4⟩ ⟨⟨[0], 4⟩⟩ :=
  ⟨fun _ _ _ _ => rfl, by decide, by decide, by decide⟩

end CryptoJS
